import Mathlib

/-!
Verification of the CSFGraph construction and query engine of `n2v/csf_graph.py`.

Modelling conventions:
* A node label is a `String`; Python compares strings by code point, modelled by
  the explicit lexicographic comparison `strle` below.
* A parsed weight is an exact rational (`ℚ`); every Python float is a rational,
  and the builtin `float()` parser is an abstract parameter `pf` of ingestion.
* The input file is the list of its lines, each line already split into its
  whitespace-separated fields (`str.split` of the Python standard library),
  i.e. a `List (List String)`.
* `numpy` `int32` storage of a float truncates toward zero; out-of-range
  conversion is platform dependent in the source and modelled as wraparound
  (`int32cast`); no claim exercises the out-of-range case.
* The two `defaultdict` maps are association lists; `defaultdict.__getitem__`
  inserts the default value on a missing key (`ddGet`), which is the only
  mutation the query surface can perform.
-/

namespace N2V

/-! ### Definitions -/

def lexLe : List Char → List Char → Bool
  | [], _ => true
  | _ :: _, [] => false
  | a :: as, b :: bs =>
    if a.toNat < b.toNat then true
    else if b.toNat < a.toNat then false
    else lexLe as bs

def strle (a b : String) : Bool := lexLe a.data b.data

def strlt (a b : String) : Bool := strle a b && !(strle b a)

def truncQ (q : ℚ) : ℤ := q.num.tdiv q.den

def int32cast (t : ℤ) : ℤ := (t + 2 ^ 31) % 2 ^ 32 - 2 ^ 31

def w32 (q : ℚ) : ℤ := int32cast (truncQ q)

structure Edge where
  nodeA : String
  nodeB : String
  weight : ℚ
deriving DecidableEq, Repr

def Edge.key (e : Edge) : String × String := (e.nodeA, e.nodeB)

def addEdge (es : List Edge) (e : Edge) : List Edge :=
  if es.any (fun x => decide (x.key = e.key)) then es else es ++ [e]

def addNode (ns : List String) (n : String) : List String :=
  if n ∈ ns then ns else ns ++ [n]

abbrev Triple := String × String × ℚ

def parseLine (pf : String → Option ℚ) (fields : List String) : Option Triple :=
  match fields with
  | [a, b, ws] =>
    match pf ws with
    | some w => some (a, b, w)
    | none => none
  | _ => none

structure IngestState where
  nodes : List String
  edges : List Edge
deriving DecidableEq, Repr

def stepTriple (st : IngestState) (t : Triple) : IngestState :=
  { nodes := addNode (addNode st.nodes t.1) t.2.1
    edges := addEdge (addEdge st.edges ⟨t.1, t.2.1, t.2.2⟩) ⟨t.2.1, t.1, t.2.2⟩ }

def ingestLine (pf : String → Option ℚ) (st : IngestState) (fields : List String) :
    IngestState :=
  match parseLine pf fields with
  | some t => stepTriple st t
  | none => st

def ingest (pf : String → Option ℚ) (lines : List (List String)) : IngestState :=
  lines.foldl (ingestLine pf) ⟨[], []⟩

def accepted (pf : String → Option ℚ) (lines : List (List String)) : List Triple :=
  lines.filterMap (parseLine pf)

def upair (a b : String) : String × String := if strle a b then (a, b) else (b, a)

def edgeLE (e f : Edge) : Prop :=
  strlt e.nodeA f.nodeA = true ∨ (e.nodeA = f.nodeA ∧ strle e.nodeB f.nodeB = true)

instance : DecidableRel edgeLE := fun e f => by
  unfold edgeLE; infer_instance

def labelLE (a b : String) : Prop := strle a b = true

instance : DecidableRel labelLE := fun a b => by
  unfold labelLE; infer_instance

def lookupD {β : Type} : List (String × β) → String → Option β
  | [], _ => none
  | (k, v) :: t, x => if x = k then some v else lookupD t x

def lookupN {β : Type} : List (ℕ × β) → ℕ → Option β
  | [], _ => none
  | (k, v) :: t, x => if x = k then some v else lookupN t x

def ddGet {β : Type} (m : List (String × β)) (k : String) (d : β) :
    β × List (String × β) :=
  match lookupD m k with
  | some v => (v, m)
  | none => (d, m ++ [(k, d)])

def ddGetN {β : Type} (m : List (ℕ × β)) (k : ℕ) (d : β) : β × List (ℕ × β) :=
  match lookupN m k with
  | some v => (v, m)
  | none => (d, m ++ [(k, d)])

def idxV (m : List (String × ℕ)) (k : String) : ℕ := (ddGet m k 0).1

def mkN2I (k : ℕ) : List String → List (String × ℕ)
  | [] => []
  | n :: t => (n, k) :: mkN2I (k + 1) t

def mkI2N (k : ℕ) : List String → List (ℕ × String)
  | [] => []
  | n :: t => (k, n) :: mkI2N (k + 1) t

def offsetsFrom (deg : String → ℕ) (off : ℕ) : List String → List ℕ
  | [] => [off]
  | nd :: t => off :: offsetsFrom deg (off + deg nd) t

structure CSFGraph where
  node_to_index_map : List (String × ℕ)
  index_to_node_map : List (ℕ × String)
  edge_to : List ℕ
  edge_weight : List ℤ
  offset_to_edge_ : List ℕ
deriving DecidableEq, Repr

def constructGraph (pf : String → Option ℚ) (lines : List (List String)) : CSFGraph :=
  let st := ingest pf lines
  let ns := List.insertionSort labelLE st.nodes
  let es := List.insertionSort edgeLE st.edges
  let n2i := mkN2I 0 ns
  { node_to_index_map := n2i
    index_to_node_map := mkI2N 0 ns
    edge_to := es.map (fun e => idxV n2i e.nodeB)
    edge_weight := es.map (fun e => w32 e.weight)
    offset_to_edge_ :=
      offsetsFrom (fun nd => es.countP (fun e => idxV n2i e.nodeA = idxV n2i nd)) 0 ns }

def pyRange (a b : ℕ) : List ℕ := List.range' a (b - a)

def offAt (g : CSFGraph) (i : ℕ) : ℕ := g.offset_to_edge_.getD i 0

def node_countQ (g : CSFGraph) : ℕ := g.node_to_index_map.length

def edge_countQ (g : CSFGraph) : ℕ := g.edge_to.length

def nodesQ (g : CSFGraph) : List String := g.node_to_index_map.map Prod.fst

def nodes_as_integersQ (g : CSFGraph) : List ℕ := g.index_to_node_map.map Prod.fst

def has_edgeQ (g : CSFGraph) (src dest : String) : Bool × CSFGraph :=
  let r1 := ddGet g.node_to_index_map src 0
  let r2 := ddGet r1.2 dest 0
  ((pyRange (offAt g r1.1) (offAt g (r1.1 + 1))).any
      (fun i => g.edge_to.getD i 0 = r2.1),
    { g with node_to_index_map := r2.2 })

def weightQ (g : CSFGraph) (source dest : String) : Option ℤ × CSFGraph :=
  let r1 := ddGet g.node_to_index_map source 0
  let r2 := ddGet r1.2 dest 0
  ((pyRange (offAt g r1.1) (offAt g (r1.1 + 1))).findSome?
      (fun i => if g.edge_to.getD i 0 = r2.1 then some (g.edge_weight.getD i 0) else none),
    { g with node_to_index_map := r2.2 })

def nbrStep (g : CSFGraph) (acc : List String × List (ℕ × String)) (i : ℕ) :
    List String × List (ℕ × String) :=
  let r := ddGetN acc.2 (g.edge_to.getD i 0) ""
  (acc.1 ++ [r.1], r.2)

def neighborsQ (g : CSFGraph) (source : String) : List String × CSFGraph :=
  let r1 := ddGet g.node_to_index_map source 0
  let acc := (pyRange (offAt g r1.1) (offAt g (r1.1 + 1))).foldl (nbrStep g)
    ([], g.index_to_node_map)
  (acc.1, { g with node_to_index_map := r1.2, index_to_node_map := acc.2 })

def edgesInner (g : CSFGraph) (src : String)
    (acc : List (String × String) × List (ℕ × String)) (j : ℕ) :
    List (String × String) × List (ℕ × String) :=
  let r := ddGetN acc.2 (g.edge_to.getD j 0) ""
  (acc.1 ++ [(src, r.1)], r.2)

def edgesOuter (g : CSFGraph) (acc : List (String × String) × List (ℕ × String))
    (si : ℕ) : List (String × String) × List (ℕ × String) :=
  let r := ddGetN acc.2 si ""
  (pyRange (offAt g si) (offAt g (si + 1))).foldl (edgesInner g r.1) (acc.1, r.2)

def edgesQ (g : CSFGraph) : List (String × String) × CSFGraph :=
  let acc := (pyRange 0 (g.offset_to_edge_.length - 1)).foldl (edgesOuter g)
    ([], g.index_to_node_map)
  (acc.1, { g with index_to_node_map := acc.2 })

def same_nodetypeQ (g : CSFGraph) (n1 n2 : String) : Bool × CSFGraph :=
  (decide (n1.data.headI = n2.data.headI), g)

inductive PyArg where
  | noneV : PyArg
  | nonString : PyArg
  | stringV : String → PyArg
deriving DecidableEq, Repr

def csfgraph_init (pf : String → Option ℚ) (fs : String → Option (List (List String))) :
    Option PyArg → Except String CSFGraph
  | none => .error "missing required positional argument"
  | some .noneV => .error "Need to pass path of file with edges"
  | some .nonString => .error "filepath argument must be string"
  | some (.stringV p) =>
    match fs p with
    | none => .error "Could not find graph file"
    | some content => .ok (constructGraph pf content)

def pairsOf (T : List Triple) : List (String × String) :=
  T.map (fun t => upair t.1 t.2.1)

def pairCount (T : List Triple) : ℕ :=
  2 * ((pairsOf T).toFinset.filter (fun p => p.1 ≠ p.2)).card +
    ((pairsOf T).toFinset.filter (fun p => p.1 = p.2)).card

def firstFor (T : List Triple) (x y : String) : Option Triple :=
  T.find? (fun t => decide (upair t.1 t.2.1 = upair x y))

structure Inv (st : IngestState) (T : List Triple) : Prop where
  keymem : ∀ x y : String, ((x, y) ∈ st.edges.map Edge.key) ↔ upair x y ∈ pairsOf T
  keynodup : (st.edges.map Edge.key).Nodup
  endA : ∀ e ∈ st.edges, e.nodeA ∈ st.nodes
  endB : ∀ e ∈ st.edges, e.nodeB ∈ st.nodes
  nodesnd : st.nodes.Nodup
  count : st.edges.length = pairCount T
  wfirst : ∀ e ∈ st.edges, ∃ t, firstFor T e.nodeA e.nodeB = some t ∧ e.weight = t.2.2

def nodeList (pf : String → Option ℚ) (lines : List (List String)) : List String :=
  List.insertionSort labelLE (ingest pf lines).nodes

def edgeList (pf : String → Option ℚ) (lines : List (List String)) : List Edge :=
  List.insertionSort edgeLE (ingest pf lines).edges

def srcIdx (pf : String → Option ℚ) (lines : List (List String)) (e : Edge) : ℕ :=
  idxV (mkN2I 0 (nodeList pf lines)) e.nodeA

def dstIdx (pf : String → Option ℚ) (lines : List (List String)) (e : Edge) : ℕ :=
  idxV (mkN2I 0 (nodeList pf lines)) e.nodeB

def degOf (pf : String → Option ℚ) (lines : List (List String)) (nd : String) : ℕ :=
  (edgeList pf lines).countP
    (fun e => decide (idxV (mkN2I 0 (nodeList pf lines)) e.nodeA =
      idxV (mkN2I 0 (nodeList pf lines)) nd))

def dfltEdge : Edge := ⟨"", "", 0⟩

def pfW : String → Option ℚ := fun s =>
  if s = "1.0" then some 1
  else if s = "2.0" then some 2
  else if s = "5.0" then some 5
  else if s = "1.5" then some (mkRat 3 2)
  else none

def fileAB : List (List String) := [["a", "b", "1.0"]]

def fileLoop : List (List String) := [["a", "a", "1.0"]]

def fileHalf : List (List String) := [["a", "b", "1.5"]]

def fileDup : List (List String) := [["a", "b", "1.0"], ["a", "b", "5.0"]]

def fileTwo : List (List String) := [["a", "b", "1.0"], ["c", "d", "2.0"]]

/-! ### Lemmas, claims, witnesses and counterexamples -/

theorem char_eq_of_toNat_eq {a b : Char} (h : a.toNat = b.toNat) : a = b :=
  Char.eq_of_val_eq (UInt32.ext h)

theorem lexLe_total (as bs : List Char) : lexLe as bs = true ∨ lexLe bs as = true := by
  induction as generalizing bs with
  | nil => left; rfl
  | cons a at' ih =>
    cases bs with
    | nil => right; rfl
    | cons b bt =>
      by_cases h1 : a.toNat < b.toNat
      · left; simp [lexLe, h1]
      · by_cases h2 : b.toNat < a.toNat
        · right; simp [lexLe, h2]
        · rcases ih bt with h | h
          · left; simp [lexLe, h1, h2, h]
          · right; simp [lexLe, h1, h2, h]

theorem lexLe_antisymm {as bs : List Char} (h1 : lexLe as bs = true)
    (h2 : lexLe bs as = true) : as = bs := by
  induction as generalizing bs with
  | nil =>
    cases bs with
    | nil => rfl
    | cons b bt => simp [lexLe] at h2
  | cons a at' ih =>
    cases bs with
    | nil => simp [lexLe] at h1
    | cons b bt =>
      by_cases ha : a.toNat < b.toNat
      · simp [lexLe, ha, Nat.lt_asymm ha] at h2
      · by_cases hb : b.toNat < a.toNat
        · simp [lexLe, ha, hb] at h1
        · have hab : a = b := char_eq_of_toNat_eq (Nat.le_antisymm (Nat.not_lt.mp hb) (Nat.not_lt.mp ha))
          simp [lexLe, ha, hb] at h1 h2
          rw [hab, ih h1 h2]

theorem lexLe_trans {as bs cs : List Char} (h1 : lexLe as bs = true)
    (h2 : lexLe bs cs = true) : lexLe as cs = true := by
  induction as generalizing bs cs with
  | nil => rfl
  | cons a at' ih =>
    cases bs with
    | nil => simp [lexLe] at h1
    | cons b bt =>
      cases cs with
      | nil => simp [lexLe] at h2
      | cons c ct =>
        by_cases hab : a.toNat < b.toNat
        · by_cases hbc : b.toNat < c.toNat
          · simp [lexLe, Nat.lt_trans hab hbc]
          · by_cases hcb : c.toNat < b.toNat
            · simp [lexLe, hbc, hcb] at h2
            · have : b.toNat = c.toNat := Nat.le_antisymm (Nat.not_lt.mp hcb) (Nat.not_lt.mp hbc)
              simp [lexLe, this ▸ hab]
        · by_cases hba : b.toNat < a.toNat
          · simp [lexLe, hab, hba] at h1
          · have hab' : a.toNat = b.toNat := Nat.le_antisymm (Nat.not_lt.mp hba) (Nat.not_lt.mp hab)
            simp [lexLe, hab, hba] at h1
            by_cases hbc : b.toNat < c.toNat
            · simp [lexLe, hab' ▸ hbc]
            · by_cases hcb : c.toNat < b.toNat
              · simp [lexLe, hbc, hcb] at h2
              · simp [lexLe, hbc, hcb] at h2
                simp [lexLe, hab' ▸ hbc, hab' ▸ hcb, ih h1 h2]

theorem string_eq_of_data_eq {a b : String} (h : a.data = b.data) : a = b := by
  cases a; cases b; exact congrArg String.mk h

theorem strle_total (a b : String) : strle a b = true ∨ strle b a = true :=
  lexLe_total a.data b.data

theorem strle_antisymm {a b : String} (h1 : strle a b = true)
    (h2 : strle b a = true) : a = b :=
  string_eq_of_data_eq (lexLe_antisymm h1 h2)

theorem strle_trans {a b c : String} (h1 : strle a b = true)
    (h2 : strle b c = true) : strle a c = true :=
  lexLe_trans h1 h2

theorem strle_refl (a : String) : strle a a = true := by
  rcases strle_total a a with h | h <;> exact h

theorem strlt_iff {a b : String} : strlt a b = true ↔ strle a b = true ∧ a ≠ b := by
  constructor
  · intro h
    rw [strlt, Bool.and_eq_true] at h
    rcases h with ⟨h1, h2⟩
    refine ⟨h1, fun hab => ?_⟩
    subst hab
    rw [strle_refl a] at h2
    simp at h2
  · rintro ⟨h1, h2⟩
    have : strle b a = false := by
      cases hba : strle b a with
      | false => rfl
      | true => exact absurd (strle_antisymm h1 hba) h2
    simp [strlt, h1, this]

theorem labelLE_isTotal : IsTotal String labelLE := ⟨fun a b => strle_total a b⟩

theorem labelLE_isTrans : IsTrans String labelLE := ⟨fun _ _ _ => strle_trans⟩

theorem edgeLE_isTotal : IsTotal Edge edgeLE := by
  constructor
  intro e f
  by_cases hA : e.nodeA = f.nodeA
  · rcases strle_total e.nodeB f.nodeB with h | h
    · exact Or.inl (Or.inr ⟨hA, h⟩)
    · exact Or.inr (Or.inr ⟨hA.symm, h⟩)
  · rcases strle_total e.nodeA f.nodeA with h | h
    · exact Or.inl (Or.inl (strlt_iff.mpr ⟨h, hA⟩))
    · exact Or.inr (Or.inl (strlt_iff.mpr ⟨h, fun hc => hA hc.symm⟩))

theorem edgeLE_isTrans : IsTrans Edge edgeLE := by
  constructor
  intro e f g hef hfg
  rcases hef with h1 | ⟨h1e, h1b⟩
  · rcases strlt_iff.mp h1 with ⟨h1le, h1ne⟩
    rcases hfg with h2 | ⟨h2e, h2b⟩
    · rcases strlt_iff.mp h2 with ⟨h2le, h2ne⟩
      refine Or.inl (strlt_iff.mpr ⟨strle_trans h1le h2le, fun hc => ?_⟩)
      exact h1ne (strle_antisymm h1le (hc ▸ h2le))
    · exact Or.inl (strlt_iff.mpr ⟨h2e ▸ h1le, h2e ▸ h1ne⟩)
  · rcases hfg with h2 | ⟨h2e, h2b⟩
    · exact Or.inl (h1e ▸ h2)
    · exact Or.inr ⟨h1e.trans h2e, strle_trans h1b h2b⟩

theorem mem_addNode {ns : List String} {n x : String} :
    x ∈ addNode ns n ↔ x ∈ ns ∨ x = n := by
  unfold addNode
  by_cases h : n ∈ ns
  · simp only [if_pos h]
    constructor
    · exact Or.inl
    · rintro (hx | rfl)
      · exact hx
      · exact h
  · simp [if_neg h]

theorem nodup_addNode {ns : List String} {n : String} (h : ns.Nodup) :
    (addNode ns n).Nodup := by
  unfold addNode
  by_cases hm : n ∈ ns
  · simpa [if_pos hm] using h
  · rw [if_neg hm]
    exact List.Nodup.append h (List.nodup_singleton n)
      (by simpa using fun hc => hm hc)

theorem addEdge_eq_of_mem {es : List Edge} {e : Edge}
    (h : e.key ∈ es.map Edge.key) : addEdge es e = es := by
  unfold addEdge
  have : es.any (fun x => decide (x.key = e.key)) = true := by
    rcases List.mem_map.mp h with ⟨x, hx, hk⟩
    exact List.any_eq_true.mpr ⟨x, hx, by simpa using hk⟩
  simp [this]

theorem addEdge_eq_of_not_mem {es : List Edge} {e : Edge}
    (h : e.key ∉ es.map Edge.key) : addEdge es e = es ++ [e] := by
  unfold addEdge
  have : es.any (fun x => decide (x.key = e.key)) = false := by
    rw [Bool.eq_false_iff]
    intro hc
    rcases List.any_eq_true.mp hc with ⟨x, hx, hk⟩
    exact h (List.mem_map.mpr ⟨x, hx, by simpa using hk⟩)
  simp [this]

theorem upair_comm (a b : String) : upair a b = upair b a := by
  unfold upair
  by_cases h1 : strle a b = true
  · by_cases h2 : strle b a = true
    · simp [h1, h2, strle_antisymm h1 h2]
    · simp [h1, h2]
  · rcases strle_total a b with h | h
    · exact absurd h h1
    · simp [h1, h]

theorem upair_self (a : String) : upair a a = (a, a) := by
  simp [upair, strle_refl]

theorem upair_eq_iff {x y a b : String} :
    upair x y = upair a b ↔ (x = a ∧ y = b) ∨ (x = b ∧ y = a) := by
  constructor
  · intro h
    unfold upair at h
    by_cases h1 : strle x y = true <;> by_cases h2 : strle a b = true <;>
      simp [h1, h2, Prod.ext_iff] at h <;> tauto
  · rintro (⟨rfl, rfl⟩ | ⟨rfl, rfl⟩)
    · rfl
    · exact upair_comm x y

theorem upair_loop_iff {a b : String} : (upair a b).1 = (upair a b).2 ↔ a = b := by
  unfold upair
  by_cases h : strle a b = true <;> simp [h, eq_comm]

theorem firstFor_append_of_some {T : List Triple} {x y : String} {t0 : Triple}
    (h : firstFor T x y = some t0) (t : Triple) :
    firstFor (T ++ [t]) x y = some t0 := by
  unfold firstFor at h ⊢
  rw [List.find?_append, h]
  rfl

theorem firstFor_eq_none {T : List Triple} {x y : String}
    (h : upair x y ∉ pairsOf T) : firstFor T x y = none := by
  unfold firstFor
  rw [List.find?_eq_none]
  intro t ht
  simp only [decide_eq_true_eq]
  intro hc
  exact h (hc ▸ List.mem_map.mpr ⟨t, ht, rfl⟩)

theorem firstFor_append_new {T : List Triple} {x y : String} (h : upair x y ∉ pairsOf T)
    {t : Triple} (hm : upair t.1 t.2.1 = upair x y) :
    firstFor (T ++ [t]) x y = some t := by
  have hn := firstFor_eq_none h
  unfold firstFor at hn ⊢
  rw [List.find?_append, hn]
  simp [List.find?, hm]

theorem toFinset_pairsOf_append (T : List Triple) (t : Triple) :
    (pairsOf (T ++ [t])).toFinset = insert (upair t.1 t.2.1) (pairsOf T).toFinset := by
  simp [pairsOf, List.toFinset_append, Finset.union_comm, Finset.insert_eq]

theorem pairCount_append_mem {T : List Triple} {t : Triple}
    (h : upair t.1 t.2.1 ∈ pairsOf T) : pairCount (T ++ [t]) = pairCount T := by
  unfold pairCount
  rw [toFinset_pairsOf_append, Finset.insert_eq_self.mpr (List.mem_toFinset.mpr h)]

theorem pairCount_append_loop {T : List Triple} {t : Triple}
    (h : upair t.1 t.2.1 ∉ pairsOf T) (hl : t.1 = t.2.1) :
    pairCount (T ++ [t]) = pairCount T + 1 := by
  unfold pairCount
  rw [toFinset_pairsOf_append]
  have hnm : upair t.1 t.2.1 ∉ (pairsOf T).toFinset := fun hc => h (List.mem_toFinset.mp hc)
  have hloop : (upair t.1 t.2.1).1 = (upair t.1 t.2.1).2 := upair_loop_iff.mpr hl
  rw [Finset.filter_insert, Finset.filter_insert]
  rw [if_neg (by simpa using hloop), if_pos hloop]
  rw [Finset.card_insert_of_not_mem (fun hc => hnm (Finset.mem_of_mem_filter _ hc))]
  ring

theorem pairCount_append_nonloop {T : List Triple} {t : Triple}
    (h : upair t.1 t.2.1 ∉ pairsOf T) (hl : t.1 ≠ t.2.1) :
    pairCount (T ++ [t]) = pairCount T + 2 := by
  unfold pairCount
  rw [toFinset_pairsOf_append]
  have hnm : upair t.1 t.2.1 ∉ (pairsOf T).toFinset := fun hc => h (List.mem_toFinset.mp hc)
  have hloop : ¬ (upair t.1 t.2.1).1 = (upair t.1 t.2.1).2 := fun hc => hl (upair_loop_iff.mp hc)
  rw [Finset.filter_insert, Finset.filter_insert]
  rw [if_pos (by simpa using hloop), if_neg hloop]
  rw [Finset.card_insert_of_not_mem (fun hc => hnm (Finset.mem_of_mem_filter _ hc))]
  ring

theorem inv_step {st : IngestState} {T : List Triple} (h : Inv st T) (t : Triple) :
    Inv (stepTriple st t) (T ++ [t]) := by
  obtain ⟨a, b, w⟩ := t
  have hpairs : pairsOf (T ++ [(a, b, w)]) = pairsOf T ++ [upair a b] := by
    simp [pairsOf]
  have hnodes : ∀ x ∈ st.nodes, x ∈ addNode (addNode st.nodes a) b :=
    fun x hx => mem_addNode.mpr (Or.inl (mem_addNode.mpr (Or.inl hx)))
  have hnodesnd : (addNode (addNode st.nodes a) b).Nodup :=
    nodup_addNode (nodup_addNode h.nodesnd)
  have hmemA : a ∈ addNode (addNode st.nodes a) b :=
    mem_addNode.mpr (Or.inl (mem_addNode.mpr (Or.inr rfl)))
  have hmemB : b ∈ addNode (addNode st.nodes a) b := mem_addNode.mpr (Or.inr rfl)
  by_cases hp : upair a b ∈ pairsOf T
  · -- the unordered pair was seen before: both records are already present
    have hab : ((a, b) : String × String) ∈ st.edges.map Edge.key := (h.keymem a b).mpr hp
    have hba : ((b, a) : String × String) ∈ st.edges.map Edge.key :=
      (h.keymem b a).mpr (upair_comm b a ▸ hp)
    have e1 : addEdge st.edges ⟨a, b, w⟩ = st.edges := addEdge_eq_of_mem hab
    have e2 : addEdge st.edges ⟨b, a, w⟩ = st.edges := addEdge_eq_of_mem hba
    have hst : stepTriple st (a, b, w) =
        ⟨addNode (addNode st.nodes a) b, st.edges⟩ := by
      simp [stepTriple, e1, e2]
    rw [hst]
    refine ⟨?_, h.keynodup, ?_, ?_, hnodesnd, ?_, ?_⟩
    · intro x y
      rw [hpairs, List.mem_append]
      constructor
      · intro hx
        exact Or.inl ((h.keymem x y).mp hx)
      · rintro (hx | hx)
        · exact (h.keymem x y).mpr hx
        · rcases upair_eq_iff.mp (List.mem_singleton.mp hx) with ⟨rfl, rfl⟩ | ⟨rfl, rfl⟩
          · exact hab
          · exact hba
    · exact fun e he => hnodes _ (h.endA e he)
    · exact fun e he => hnodes _ (h.endB e he)
    · rw [pairCount_append_mem hp]
      exact h.count
    · intro e he
      rcases h.wfirst e he with ⟨t0, hf, hw⟩
      exact ⟨t0, firstFor_append_of_some hf _, hw⟩
  · -- new unordered pair
    have hab : ((a, b) : String × String) ∉ st.edges.map Edge.key :=
      fun hc => hp ((h.keymem a b).mp hc)
    have hba : ((b, a) : String × String) ∉ st.edges.map Edge.key :=
      fun hc => hp (upair_comm a b ▸ (h.keymem b a).mp hc)
    have hnone : firstFor T a b = none := firstFor_eq_none hp
    by_cases heq : a = b
    · -- self-loop: the two inserted records coincide, one entry is added
      subst heq
      have e1 : addEdge st.edges ⟨a, a, w⟩ = st.edges ++ [⟨a, a, w⟩] :=
        addEdge_eq_of_not_mem hab
      have e2 : addEdge (st.edges ++ [⟨a, a, w⟩]) ⟨a, a, w⟩ = st.edges ++ [⟨a, a, w⟩] :=
        addEdge_eq_of_mem (by simp [Edge.key])
      have hst : stepTriple st (a, a, w) =
          ⟨addNode (addNode st.nodes a) a, st.edges ++ [⟨a, a, w⟩]⟩ := by
        simp [stepTriple, e1, e2]
      rw [hst]
      refine ⟨?_, ?_, ?_, ?_, hnodesnd, ?_, ?_⟩
      · intro x y
        rw [hpairs, List.mem_append]
        show (x, y) ∈ List.map Edge.key (st.edges ++ [⟨a, a, w⟩]) ↔ _
        rw [List.map_append, List.mem_append]
        simp only [List.map_cons, List.map_nil, Edge.key, List.mem_singleton]
        constructor
        · rintro (hx | hx)
          · exact Or.inl ((h.keymem x y).mp hx)
          · rcases Prod.mk.injEq .. ▸ hx with ⟨rfl, rfl⟩
            exact Or.inr (by simp [upair_self])
        · rintro (hx | hx)
          · exact Or.inl ((h.keymem x y).mpr hx)
          · rcases upair_eq_iff.mp ((upair_self a ▸ hx : upair x y = upair a a)) with
              ⟨rfl, rfl⟩ | ⟨rfl, rfl⟩ <;> exact Or.inr rfl
      · rw [List.map_append]
        refine List.Nodup.append h.keynodup (by simp) ?_
        intro k hk
        simp only [List.map_cons, List.map_nil, Edge.key, List.mem_singleton]
        intro hc
        exact hab (hc ▸ hk)
      · intro e he
        rcases List.mem_append.mp he with he | he
        · exact hnodes _ (h.endA e he)
        · rw [List.mem_singleton.mp he]
          exact hmemA
      · intro e he
        rcases List.mem_append.mp he with he | he
        · exact hnodes _ (h.endB e he)
        · rw [List.mem_singleton.mp he]
          exact hmemA
      · rw [List.length_append, h.count, pairCount_append_loop hp rfl]
        rfl
      · intro e he
        rcases List.mem_append.mp he with he | he
        · rcases h.wfirst e he with ⟨t0, hf, hw⟩
          exact ⟨t0, firstFor_append_of_some hf _, hw⟩
        · rw [List.mem_singleton.mp he]
          show ∃ t0, firstFor (T ++ [(a, a, w)]) a a = some t0 ∧ w = t0.2.2
          exact ⟨(a, a, w), firstFor_append_new hp rfl, rfl⟩
    · -- two distinct records are added
      have e1 : addEdge st.edges ⟨a, b, w⟩ = st.edges ++ [⟨a, b, w⟩] :=
        addEdge_eq_of_not_mem hab
      have e2 : addEdge (st.edges ++ [⟨a, b, w⟩]) ⟨b, a, w⟩ =
          st.edges ++ [⟨a, b, w⟩] ++ [⟨b, a, w⟩] := by
        refine addEdge_eq_of_not_mem ?_
        rw [List.map_append, List.mem_append]
        rintro (hc | hc)
        · exact hba hc
        · simp only [List.map_cons, List.map_nil, Edge.key, List.mem_singleton] at hc
          exact heq (Prod.mk.injEq .. ▸ hc).2
      have hst : stepTriple st (a, b, w) =
          ⟨addNode (addNode st.nodes a) b, st.edges ++ [⟨a, b, w⟩] ++ [⟨b, a, w⟩]⟩ := by
        simp [stepTriple, e1, e2]
      rw [hst]
      refine ⟨?_, ?_, ?_, ?_, hnodesnd, ?_, ?_⟩
      · intro x y
        rw [hpairs, List.mem_append]
        rw [List.map_append, List.map_append, List.mem_append, List.mem_append]
        simp only [List.map_cons, List.map_nil, Edge.key, List.mem_singleton]
        constructor
        · rintro ((hx | hx) | hx)
          · exact Or.inl ((h.keymem x y).mp hx)
          · rcases Prod.mk.injEq .. ▸ hx with ⟨rfl, rfl⟩
            exact Or.inr rfl
          · rcases Prod.mk.injEq .. ▸ hx with ⟨rfl, rfl⟩
            exact Or.inr (upair_comm x y)
        · rintro (hx | hx)
          · exact Or.inl (Or.inl ((h.keymem x y).mpr hx))
          · rcases upair_eq_iff.mp hx with ⟨rfl, rfl⟩ | ⟨rfl, rfl⟩
            · exact Or.inl (Or.inr rfl)
            · exact Or.inr rfl
      · rw [List.map_append, List.map_append]
        refine List.Nodup.append (List.Nodup.append h.keynodup (by simp) ?_) (by simp) ?_
        · intro k hk
          simp only [List.map_cons, List.map_nil, Edge.key, List.mem_singleton]
          intro hc
          exact hab (hc ▸ hk)
        · intro k hk
          rcases List.mem_append.mp hk with hk | hk
          · simp only [List.map_cons, List.map_nil, Edge.key, List.mem_singleton]
            intro hc
            exact hba (hc ▸ hk)
          · simp only [List.map_cons, List.map_nil, Edge.key, List.mem_singleton] at hk ⊢
            intro hc
            rw [hk] at hc
            exact heq (Prod.mk.injEq .. ▸ hc).2.symm
      · intro e he
        rcases List.mem_append.mp he with he | he
        · rcases List.mem_append.mp he with he | he
          · exact hnodes _ (h.endA e he)
          · rw [List.mem_singleton.mp he]
            exact hmemA
        · rw [List.mem_singleton.mp he]
          exact hmemB
      · intro e he
        rcases List.mem_append.mp he with he | he
        · rcases List.mem_append.mp he with he | he
          · exact hnodes _ (h.endB e he)
          · rw [List.mem_singleton.mp he]
            exact hmemB
        · rw [List.mem_singleton.mp he]
          exact hmemA
      · rw [List.length_append, List.length_append, h.count,
          pairCount_append_nonloop hp heq]
        rfl
      · intro e he
        rcases List.mem_append.mp he with he | he
        · rcases List.mem_append.mp he with he | he
          · rcases h.wfirst e he with ⟨t0, hf, hw⟩
            exact ⟨t0, firstFor_append_of_some hf _, hw⟩
          · rw [List.mem_singleton.mp he]
            show ∃ t0, firstFor (T ++ [(a, b, w)]) a b = some t0 ∧ w = t0.2.2
            exact ⟨(a, b, w), firstFor_append_new hp rfl, rfl⟩
        · rw [List.mem_singleton.mp he]
          show ∃ t0, firstFor (T ++ [(a, b, w)]) b a = some t0 ∧ w = t0.2.2
          refine ⟨(a, b, w), ?_, rfl⟩
          exact firstFor_append_new (fun hc => hp (upair_comm a b ▸ hc)) (upair_comm a b)

theorem inv_nil : Inv ⟨[], []⟩ [] := by
  refine ⟨?_, ?_, ?_, ?_, ?_, ?_, ?_⟩ <;> simp [pairsOf, pairCount]

theorem inv_foldl {st : IngestState} {T : List Triple} (h : Inv st T) :
    ∀ ts : List Triple, Inv (ts.foldl stepTriple st) (T ++ ts) := by
  intro ts
  induction ts generalizing st T with
  | nil => simpa using h
  | cons t ts ih =>
    have := ih (inv_step h t)
    simpa using this

theorem ingest_eq_foldl (pf : String → Option ℚ) (lines : List (List String)) :
    ingest pf lines = (accepted pf lines).foldl stepTriple ⟨[], []⟩ := by
  unfold ingest accepted
  generalize (⟨[], []⟩ : IngestState) = st
  induction lines generalizing st with
  | nil => rfl
  | cons l ls ih =>
    rw [List.foldl_cons, List.filterMap_cons]
    cases hp : parseLine pf l with
    | none =>
      rw [ingestLine, hp]
      exact ih st
    | some t =>
      rw [ingestLine, hp, List.foldl_cons]
      exact ih (stepTriple st t)

theorem inv_ingest (pf : String → Option ℚ) (lines : List (List String)) :
    Inv (ingest pf lines) (accepted pf lines) := by
  rw [ingest_eq_foldl]
  simpa using inv_foldl inv_nil (accepted pf lines)

theorem lookupD_mkN2I_get :
    ∀ ns : List String, ns.Nodup → ∀ (k i : ℕ) (h : i < ns.length),
      lookupD (mkN2I k ns) (ns.get ⟨i, h⟩) = some (k + i) := by
  intro ns
  induction ns with
  | nil => intro _ k i h; simp at h
  | cons n t ih =>
    intro hnd k i h
    cases i with
    | zero => simp [mkN2I, lookupD]
    | succ j =>
      have hj : j < t.length := by simpa using h
      have hne : t.get ⟨j, hj⟩ ≠ n := by
        intro hc
        exact (List.nodup_cons.mp hnd).1 (hc ▸ t.get_mem j hj)
      have hg : (n :: t).get ⟨j + 1, h⟩ = t.get ⟨j, hj⟩ := rfl
      rw [hg, mkN2I, lookupD, if_neg hne, ih (List.nodup_cons.mp hnd).2 (k + 1) j hj]
      congr 1
      omega

theorem lookupD_mkN2I_not_mem :
    ∀ ns : List String, ∀ x : String, x ∉ ns →
      ∀ k : ℕ, lookupD (mkN2I k ns) x = none := by
  intro ns
  induction ns with
  | nil => intro x _ k; rfl
  | cons n t ih =>
    intro x h k
    rw [mkN2I, lookupD, if_neg (fun hc => h (by rw [hc]; exact List.mem_cons_self n t))]
    exact ih x (fun hc => h (List.mem_cons_of_mem n hc)) (k + 1)

theorem lookupD_mkN2I_some :
    ∀ ns : List String, ∀ (x : String) (k v : ℕ),
      lookupD (mkN2I k ns) x = some v →
      ∃ (i : ℕ) (h : i < ns.length), ns.get ⟨i, h⟩ = x ∧ v = k + i := by
  intro ns
  induction ns with
  | nil => intro x k v h; simp [mkN2I, lookupD] at h
  | cons n t ih =>
    intro x k v h
    rw [mkN2I, lookupD] at h
    by_cases hx : x = n
    · rw [if_pos hx] at h
      have hv : v = k := (Option.some.inj h).symm
      exact ⟨0, by simp, by simpa using hx.symm, by omega⟩
    · rw [if_neg hx] at h
      rcases ih x (k + 1) v h with ⟨i, hi, hget, hv⟩
      exact ⟨i + 1, by simpa using hi, hget, by omega⟩

theorem idxV_get {ns : List String} (hnd : ns.Nodup) {i : ℕ} (h : i < ns.length) :
    idxV (mkN2I 0 ns) (ns.get ⟨i, h⟩) = i := by
  unfold idxV ddGet
  rw [lookupD_mkN2I_get ns hnd 0 i h]
  simp

theorem idxV_not_mem {ns : List String} {x : String} (h : x ∉ ns) :
    idxV (mkN2I 0 ns) x = 0 := by
  unfold idxV ddGet
  rw [lookupD_mkN2I_not_mem ns x h 0]

theorem idxV_lt {ns : List String} (hnd : ns.Nodup) {x : String} (h : x ∈ ns) :
    idxV (mkN2I 0 ns) x < ns.length := by
  rcases List.get_of_mem h with ⟨⟨i, hi⟩, rfl⟩
  rw [idxV_get hnd hi]
  exact hi

theorem get_idxV {ns : List String} (hnd : ns.Nodup) {x : String} (h : x ∈ ns) :
    ∃ hlt : idxV (mkN2I 0 ns) x < ns.length, ns.get ⟨idxV (mkN2I 0 ns) x, hlt⟩ = x := by
  rcases List.get_of_mem h with ⟨⟨i, hi⟩, rfl⟩
  rw [idxV_get hnd hi]
  exact ⟨hi, rfl⟩

theorem idxV_inj {ns : List String} (hnd : ns.Nodup) {x y : String}
    (hx : x ∈ ns) (hy : y ∈ ns)
    (h : idxV (mkN2I 0 ns) x = idxV (mkN2I 0 ns) y) : x = y := by
  rcases get_idxV hnd hx with ⟨hlt1, he1⟩
  rcases get_idxV hnd hy with ⟨hlt2, he2⟩
  rw [← he1, ← he2]
  congr 1
  exact Fin.ext h

theorem lookupN_mkI2N_lt :
    ∀ ns : List String, ∀ (k j : ℕ) (h : j < ns.length),
      lookupN (mkI2N k ns) (k + j) = some (ns.get ⟨j, h⟩) := by
  intro ns
  induction ns with
  | nil => intro k j h; simp at h
  | cons n t ih =>
    intro k j h
    cases j with
    | zero => simp [mkI2N, lookupN]
    | succ i =>
      have hi : i < t.length := by simpa using h
      rw [mkI2N, lookupN, if_neg (by omega)]
      have hsh : k + (i + 1) = (k + 1) + i := by omega
      rw [hsh, ih (k + 1) i hi]
      rfl

theorem lookupN_mkI2N_ge :
    ∀ ns : List String, ∀ (k j : ℕ), ns.length + k ≤ j →
      lookupN (mkI2N k ns) j = none := by
  intro ns
  induction ns with
  | nil => intro k j h; rfl
  | cons n t ih =>
    intro k j h
    simp only [List.length_cons] at h
    rw [mkI2N, lookupN, if_neg (by omega)]
    exact ih (k + 1) j (by omega)

theorem length_offsetsFrom (deg : String → ℕ) :
    ∀ (off : ℕ) (ns : List String), (offsetsFrom deg off ns).length = ns.length + 1 := by
  intro off ns
  induction ns generalizing off with
  | nil => rfl
  | cons n t ih => simp [offsetsFrom, ih]

theorem getD_offsetsFrom (deg : String → ℕ) :
    ∀ (ns : List String) (off i : ℕ), i ≤ ns.length →
      (offsetsFrom deg off ns).getD i 0 = off + ((ns.take i).map deg).sum := by
  intro ns
  induction ns with
  | nil =>
    intro off i h
    have hz : i = 0 := Nat.le_zero.mp h
    simp [hz, offsetsFrom]
  | cons n t ih =>
    intro off i h
    cases i with
    | zero => simp [offsetsFrom]
    | succ j =>
      have hj : j ≤ t.length := by simpa using h
      show (offsetsFrom deg (off + deg n) t).getD j 0 = _
      rw [ih (off + deg n) j hj]
      simp [List.take_cons, Nat.add_assoc]

theorem countP_lt_succ {α : Type} (key : α → ℕ) (i : ℕ) :
    ∀ l : List α, l.countP (fun e => decide (key e < i + 1)) =
      l.countP (fun e => decide (key e < i)) + l.countP (fun e => decide (key e = i)) := by
  intro l
  induction l with
  | nil => rfl
  | cons x t ih =>
    rw [List.countP_cons, List.countP_cons, List.countP_cons, ih]
    by_cases h1 : key x < i
    · have h1a : key x < i + 1 := by omega
      have h2 : ¬ key x = i := by omega
      simp [h1, h1a, h2]
      omega
    · by_cases h2 : key x = i
      · have h1a : key x < i + 1 := by omega
        simp [h1, h1a, h2]
        omega
      · have h1a : ¬ key x < i + 1 := by omega
        simp [h1, h1a, h2]

theorem sorted_key_block {α : Type} (key : α → ℕ) :
    ∀ l : List α, (l.map key).Pairwise (fun a b => a ≤ b) →
      ∀ i : ℕ, (l.drop (l.countP (fun e => decide (key e < i)))).take
          (l.countP (fun e => decide (key e = i))) =
        l.filter (fun e => decide (key e = i)) := by
  intro l
  induction l with
  | nil => intro _ i; rfl
  | cons x t ih =>
    intro hs i
    have hs' : (t.map key).Pairwise (fun a b => a ≤ b) :=
      (List.pairwise_cons.mp (by simpa using hs)).2
    have hge : ∀ e ∈ t, key x ≤ key e := by
      intro e he
      exact (List.pairwise_cons.mp (by simpa using hs)).1 (key e)
        (List.mem_map.mpr ⟨e, he, rfl⟩)
    rcases Nat.lt_trichotomy (key x) i with hx | hx | hx
    · -- the head is below the block
      have hne : ¬ key x = i := by omega
      have c1 : (x :: t).countP (fun e => decide (key e < i)) =
          t.countP (fun e => decide (key e < i)) + 1 := by
        rw [List.countP_cons]
        simp [hx]
      have c2 : (x :: t).countP (fun e => decide (key e = i)) =
          t.countP (fun e => decide (key e = i)) := by
        rw [List.countP_cons]
        simp [hne]
      have c3 : (x :: t).filter (fun e => decide (key e = i)) =
          t.filter (fun e => decide (key e = i)) := by
        rw [List.filter_cons]
        simp [hne]
      rw [c1, c2, c3, List.drop_succ_cons]
      exact ih hs' i
    · -- the head starts the block
      subst hx
      have hnone : t.countP (fun e => decide (key e < key x)) = 0 :=
        List.countP_eq_zero.mpr (fun e he => by
          simp only [decide_eq_true_eq]
          exact Nat.not_lt.mpr (hge e he))
      have c1 : (x :: t).countP (fun e => decide (key e < key x)) = 0 := by
        rw [List.countP_cons]
        simp [hnone]
      have c2 : (x :: t).countP (fun e => decide (key e = key x)) =
          t.countP (fun e => decide (key e = key x)) + 1 := by
        rw [List.countP_cons]
        simp
      have c3 : (x :: t).filter (fun e => decide (key e = key x)) =
          x :: t.filter (fun e => decide (key e = key x)) := by
        rw [List.filter_cons]
        simp
      have ht := ih hs' (key x)
      rw [hnone, List.drop_zero] at ht
      rw [c1, c2, c3, List.drop_zero, List.take_succ_cons, ht]
    · -- the whole list is above the block
      have hnone : (x :: t).countP (fun e => decide (key e < i)) = 0 :=
        List.countP_eq_zero.mpr (by
          intro e he
          simp only [decide_eq_true_eq]
          rcases List.mem_cons.mp he with rfl | he
          · omega
          · have := hge e he
            omega)
      have heq0 : (x :: t).countP (fun e => decide (key e = i)) = 0 :=
        List.countP_eq_zero.mpr (by
          intro e he
          simp only [decide_eq_true_eq]
          rcases List.mem_cons.mp he with rfl | he
          · omega
          · have := hge e he
            omega)
      have hfil : (x :: t).filter (fun e => decide (key e = i)) = [] := by
        rw [List.filter_eq_nil_iff]
        intro e he
        simp only [decide_eq_true_eq]
        rcases List.mem_cons.mp he with rfl | he
        · omega
        · have := hge e he
          omega
      rw [hnone, heq0, hfil, List.drop_zero, List.take_zero]

theorem constructGraph_def (pf : String → Option ℚ) (lines : List (List String)) :
    constructGraph pf lines =
      { node_to_index_map := mkN2I 0 (nodeList pf lines)
        index_to_node_map := mkI2N 0 (nodeList pf lines)
        edge_to := (edgeList pf lines).map
          (fun e => idxV (mkN2I 0 (nodeList pf lines)) e.nodeB)
        edge_weight := (edgeList pf lines).map (fun e => w32 e.weight)
        offset_to_edge_ := offsetsFrom (degOf pf lines) 0 (nodeList pf lines) } := rfl

theorem nodeList_sorted (pf : String → Option ℚ) (lines : List (List String)) :
    List.Sorted labelLE (nodeList pf lines) :=
  @List.sorted_insertionSort String labelLE _ labelLE_isTotal labelLE_isTrans
    (ingest pf lines).nodes

theorem nodeList_perm (pf : String → Option ℚ) (lines : List (List String)) :
    (nodeList pf lines).Perm (ingest pf lines).nodes :=
  List.perm_insertionSort labelLE (ingest pf lines).nodes

theorem nodeList_nodup (pf : String → Option ℚ) (lines : List (List String)) :
    (nodeList pf lines).Nodup :=
  ((nodeList_perm pf lines).nodup_iff).mpr (inv_ingest pf lines).nodesnd

theorem mem_nodeList (pf : String → Option ℚ) (lines : List (List String))
    {x : String} : x ∈ nodeList pf lines ↔ x ∈ (ingest pf lines).nodes :=
  List.mem_insertionSort labelLE

theorem edgeList_sorted (pf : String → Option ℚ) (lines : List (List String)) :
    List.Sorted edgeLE (edgeList pf lines) :=
  @List.sorted_insertionSort Edge edgeLE _ edgeLE_isTotal edgeLE_isTrans
    (ingest pf lines).edges

theorem edgeList_perm (pf : String → Option ℚ) (lines : List (List String)) :
    (edgeList pf lines).Perm (ingest pf lines).edges :=
  List.perm_insertionSort edgeLE (ingest pf lines).edges

theorem mem_edgeList (pf : String → Option ℚ) (lines : List (List String))
    {e : Edge} : e ∈ edgeList pf lines ↔ e ∈ (ingest pf lines).edges :=
  List.mem_insertionSort edgeLE

theorem edgeList_key_nodup (pf : String → Option ℚ) (lines : List (List String)) :
    ((edgeList pf lines).map Edge.key).Nodup :=
  (((edgeList_perm pf lines).map Edge.key).nodup_iff).mpr (inv_ingest pf lines).keynodup

theorem edgeList_endA (pf : String → Option ℚ) (lines : List (List String))
    {e : Edge} (he : e ∈ edgeList pf lines) : e.nodeA ∈ nodeList pf lines :=
  (mem_nodeList pf lines).mpr
    ((inv_ingest pf lines).endA e ((mem_edgeList pf lines).mp he))

theorem edgeList_endB (pf : String → Option ℚ) (lines : List (List String))
    {e : Edge} (he : e ∈ edgeList pf lines) : e.nodeB ∈ nodeList pf lines :=
  (mem_nodeList pf lines).mpr
    ((inv_ingest pf lines).endB e ((mem_edgeList pf lines).mp he))

theorem srcIdx_lt (pf : String → Option ℚ) (lines : List (List String))
    {e : Edge} (he : e ∈ edgeList pf lines) :
    srcIdx pf lines e < (nodeList pf lines).length :=
  idxV_lt (nodeList_nodup pf lines) (edgeList_endA pf lines he)

theorem dstIdx_lt (pf : String → Option ℚ) (lines : List (List String))
    {e : Edge} (he : e ∈ edgeList pf lines) :
    dstIdx pf lines e < (nodeList pf lines).length :=
  idxV_lt (nodeList_nodup pf lines) (edgeList_endB pf lines he)

theorem srcIdx_pairwise (pf : String → Option ℚ) (lines : List (List String)) :
    (((edgeList pf lines).map (srcIdx pf lines)).Pairwise (fun a b => a ≤ b)) := by
  rw [List.pairwise_map]
  refine List.Pairwise.imp_of_mem ?_ (edgeList_sorted pf lines)
  intro e f he hf hef
  rcases hef with hlt | ⟨heq, _⟩
  · rcases strlt_iff.mp hlt with ⟨hle, hne⟩
    by_contra hc
    have hlt2 : srcIdx pf lines f < srcIdx pf lines e := by omega
    rcases get_idxV (nodeList_nodup pf lines) (edgeList_endA pf lines he) with ⟨h1, hg1⟩
    rcases get_idxV (nodeList_nodup pf lines) (edgeList_endA pf lines hf) with ⟨h2, hg2⟩
    have hrel : labelLE ((nodeList pf lines).get ⟨srcIdx pf lines f, h2⟩)
        ((nodeList pf lines).get ⟨srcIdx pf lines e, h1⟩) :=
      (nodeList_sorted pf lines).rel_get_of_lt hlt2
    unfold srcIdx at hrel
    rw [hg1, hg2] at hrel
    exact hne (strle_antisymm hle hrel)
  · unfold srcIdx
    rw [heq]

theorem offAt_eq_countP (pf : String → Option ℚ) (lines : List (List String))
    {i : ℕ} (hi : i ≤ (nodeList pf lines).length) :
    offAt (constructGraph pf lines) i =
      (edgeList pf lines).countP (fun e => decide (srcIdx pf lines e < i)) := by
  unfold offAt
  rw [constructGraph_def]
  show (offsetsFrom (degOf pf lines) 0 (nodeList pf lines)).getD i 0 = _
  rw [getD_offsetsFrom (degOf pf lines) (nodeList pf lines) 0 i hi, Nat.zero_add]
  induction i with
  | zero =>
    rw [List.take_zero]
    exact (List.countP_eq_zero.mpr (fun e _ => by simp)).symm
  | succ j ih =>
    have hj : j ≤ (nodeList pf lines).length := by omega
    have hjlt : j < (nodeList pf lines).length := by omega
    rw [List.map_take, List.take_succ]
    have hget : ((nodeList pf lines).map (degOf pf lines))[j]? =
        some (degOf pf lines ((nodeList pf lines).get ⟨j, hjlt⟩)) := by
      rw [List.getElem?_map]
      rw [List.getElem?_eq_getElem hjlt]
      rfl
    rw [hget]
    rw [List.sum_append, ← List.map_take, ih hj]
    show _ + ((degOf pf lines ((nodeList pf lines).get ⟨j, hjlt⟩)) + 0) = _
    have hdeg : degOf pf lines ((nodeList pf lines).get ⟨j, hjlt⟩) =
        (edgeList pf lines).countP (fun e => decide (srcIdx pf lines e = j)) := by
      unfold degOf
      rw [idxV_get (nodeList_nodup pf lines) hjlt]
      rfl
    rw [hdeg, Nat.add_zero, countP_lt_succ (srcIdx pf lines) j (edgeList pf lines)]

theorem offAt_zero (pf : String → Option ℚ) (lines : List (List String)) :
    offAt (constructGraph pf lines) 0 = 0 := by
  rw [offAt_eq_countP pf lines (Nat.zero_le _)]
  exact List.countP_eq_zero.mpr (fun e _ => by simp)

theorem offAt_le_length (pf : String → Option ℚ) (lines : List (List String))
    {i : ℕ} (hi : i ≤ (nodeList pf lines).length) :
    offAt (constructGraph pf lines) i ≤ (edgeList pf lines).length := by
  rw [offAt_eq_countP pf lines hi]
  exact List.countP_le_length _

theorem offAt_mono (pf : String → Option ℚ) (lines : List (List String))
    {i j : ℕ} (hij : i ≤ j) (hj : j ≤ (nodeList pf lines).length) :
    offAt (constructGraph pf lines) i ≤ offAt (constructGraph pf lines) j := by
  rw [offAt_eq_countP pf lines (le_trans hij hj), offAt_eq_countP pf lines hj]
  refine List.countP_mono_left ?_
  intro e _ h
  simp only [decide_eq_true_eq] at h ⊢
  omega

theorem offAt_succ_sub (pf : String → Option ℚ) (lines : List (List String))
    {i : ℕ} (hi : i < (nodeList pf lines).length) :
    offAt (constructGraph pf lines) (i + 1) - offAt (constructGraph pf lines) i =
      (edgeList pf lines).countP (fun e => decide (srcIdx pf lines e = i)) := by
  rw [offAt_eq_countP pf lines (by omega), offAt_eq_countP pf lines (by omega),
    countP_lt_succ (srcIdx pf lines) i (edgeList pf lines)]
  omega

theorem edge_block (pf : String → Option ℚ) (lines : List (List String)) (i : ℕ) :
    ((edgeList pf lines).drop
        ((edgeList pf lines).countP (fun e => decide (srcIdx pf lines e < i)))).take
      ((edgeList pf lines).countP (fun e => decide (srcIdx pf lines e = i))) =
      (edgeList pf lines).filter (fun e => decide (srcIdx pf lines e = i)) :=
  sorted_key_block (srcIdx pf lines) (edgeList pf lines) (srcIdx_pairwise pf lines) i

theorem exists_mem_map {α β : Type} (f : α → β) (l : List α) (P : β → Prop) :
    (∃ x ∈ l.map f, P x) ↔ ∃ a ∈ l, P (f a) := by
  constructor
  · rintro ⟨x, hx, hP⟩
    rcases List.mem_map.mp hx with ⟨a, ha, rfl⟩
    exact ⟨a, ha, hP⟩
  · rintro ⟨a, ha, hP⟩
    exact ⟨f a, List.mem_map.mpr ⟨a, ha, rfl⟩, hP⟩

theorem getD_map {α β : Type} (f : α → β) (l : List α) {j : ℕ} (d : β) (d' : α)
    (h : j < l.length) : (l.map f).getD j d = f (l.getD j d') := by
  rw [List.getD_eq_getElem (l.map f) d (by simpa using h),
    List.getD_eq_getElem l d' h, List.getElem_map]

theorem findSome?_congr {α β : Type} {f g : α → Option β} :
    ∀ l : List α, (∀ x ∈ l, f x = g x) → l.findSome? f = l.findSome? g := by
  intro l
  induction l with
  | nil => intro _; rfl
  | cons x t ih =>
    intro h
    rw [List.findSome?_cons, List.findSome?_cons, h x (List.mem_cons_self x t)]
    cases g x with
    | some v => rfl
    | none => exact ih (fun y hy => h y (List.mem_cons_of_mem x hy))

theorem findSome?_guard {α β : Type} (p : α → Prop) [DecidablePred p] (f : α → β) :
    ∀ l : List α,
      l.findSome? (fun e => if p e then some (f e) else none) =
        (l.find? (fun e => decide (p e))).map f := by
  intro l
  induction l with
  | nil => rfl
  | cons x t ih =>
    rw [List.findSome?_cons, List.find?_cons]
    by_cases hx : p x
    · simp [hx]
    · have hd : decide (p x) = false := decide_eq_false hx
      simp only [if_neg hx, hd]
      simpa using ih

theorem find?_filter_eq {α : Type} (q p : α → Bool) :
    ∀ l : List α, (l.filter q).find? p = l.find? (fun e => q e && p e) := by
  intro l
  induction l with
  | nil => rfl
  | cons x t ih =>
    rw [List.filter_cons, List.find?_cons]
    by_cases hq : q x = true
    · rw [if_pos hq, List.find?_cons]
      by_cases hp : p x = true
      · simp [hp, hq]
      · simp only [Bool.not_eq_true] at hp
        simp [hp, hq, ih]
    · simp only [Bool.not_eq_true] at hq
      simp [hq, ih]

theorem find?_congr_mem {α : Type} {p q : α → Bool} :
    ∀ l : List α, (∀ x ∈ l, p x = q x) → l.find? p = l.find? q := by
  intro l
  induction l with
  | nil => intro _; rfl
  | cons x t ih =>
    intro h
    rw [List.find?_cons, List.find?_cons, h x (List.mem_cons_self x t)]
    cases q x with
    | true => rfl
    | false => exact ih (fun y hy => h y (List.mem_cons_of_mem x hy))

theorem range'_map_getD {α : Type} (d : α) :
    ∀ (k a : ℕ) (l : List α), a + k ≤ l.length →
      (List.range' a k).map (fun j => l.getD j d) = (l.drop a).take k := by
  intro k
  induction k with
  | zero => intro a l _; simp
  | succ m ih =>
    intro a l h
    have ha : a < l.length := by omega
    rw [List.range'_succ, List.map_cons, List.getD_eq_getElem l d ha,
      List.drop_eq_getElem_cons ha, List.take_succ_cons, ih (a + 1) l (by omega)]

theorem ddGet_pres {β : Type} {m : List (String × β)} {k : String} {v : β} (d : β)
    (h : lookupD m k = some v) : ddGet m k d = (v, m) := by
  unfold ddGet
  rw [h]

theorem ddGetN_pres {β : Type} {m : List (ℕ × β)} {k : ℕ} {v : β} (d : β)
    (h : lookupN m k = some v) : ddGetN m k d = (v, m) := by
  unfold ddGetN
  rw [h]

theorem lookupD_mkN2I_self {ns : List String} (hnd : ns.Nodup) {x : String}
    (h : x ∈ ns) : lookupD (mkN2I 0 ns) x = some (idxV (mkN2I 0 ns) x) := by
  rcases List.get_of_mem h with ⟨⟨i, hi⟩, rfl⟩
  rw [lookupD_mkN2I_get ns hnd 0 i hi, idxV_get hnd hi]
  simp

theorem lookupN_mkI2N_self {ns : List String} {j : ℕ} (h : j < ns.length) :
    lookupN (mkI2N 0 ns) j = some (ns.get ⟨j, h⟩) := by
  have := lookupN_mkI2N_lt ns 0 j h
  simpa using this

theorem edge_to_block (pf : String → Option ℚ) (lines : List (List String))
    {i : ℕ} (hi : i < (nodeList pf lines).length) :
    (((constructGraph pf lines).edge_to.drop (offAt (constructGraph pf lines) i)).take
        (offAt (constructGraph pf lines) (i + 1) - offAt (constructGraph pf lines) i)) =
      ((edgeList pf lines).filter (fun e => decide (srcIdx pf lines e = i))).map
        (dstIdx pf lines) := by
  rw [offAt_succ_sub pf lines hi, offAt_eq_countP pf lines (by omega)]
  rw [constructGraph_def]
  show (((edgeList pf lines).map (dstIdx pf lines)).drop _).take _ = _
  rw [← List.map_drop, ← List.map_take, edge_block]

theorem edge_weight_block (pf : String → Option ℚ) (lines : List (List String))
    {i : ℕ} (hi : i < (nodeList pf lines).length) :
    (((constructGraph pf lines).edge_weight.drop (offAt (constructGraph pf lines) i)).take
        (offAt (constructGraph pf lines) (i + 1) - offAt (constructGraph pf lines) i)) =
      ((edgeList pf lines).filter (fun e => decide (srcIdx pf lines e = i))).map
        (fun e => w32 e.weight) := by
  rw [offAt_succ_sub pf lines hi, offAt_eq_countP pf lines (by omega)]
  rw [constructGraph_def]
  show (((edgeList pf lines).map (fun e => w32 e.weight)).drop _).take _ = _
  rw [← List.map_drop, ← List.map_take, edge_block]

theorem has_edgeQ_eval (pf : String → Option ℚ) (lines : List (List String))
    {s d : String} (hs : s ∈ nodeList pf lines) (hd : d ∈ nodeList pf lines) :
    has_edgeQ (constructGraph pf lines) s d =
      ((pyRange (offAt (constructGraph pf lines) (idxV (mkN2I 0 (nodeList pf lines)) s))
          (offAt (constructGraph pf lines) (idxV (mkN2I 0 (nodeList pf lines)) s + 1))).any
        (fun j => decide ((constructGraph pf lines).edge_to.getD j 0 =
          idxV (mkN2I 0 (nodeList pf lines)) d)),
        constructGraph pf lines) := by
  have hnd := nodeList_nodup pf lines
  have h1 := lookupD_mkN2I_self hnd hs
  have h2 := lookupD_mkN2I_self hnd hd
  unfold has_edgeQ
  have hmap : (constructGraph pf lines).node_to_index_map = mkN2I 0 (nodeList pf lines) := by
    rw [constructGraph_def]
  rw [hmap, ddGet_pres 0 h1]
  simp only
  rw [ddGet_pres 0 h2]
  simp only
  rw [← hmap]

theorem weightQ_eval (pf : String → Option ℚ) (lines : List (List String))
    {s d : String} (hs : s ∈ nodeList pf lines) (hd : d ∈ nodeList pf lines) :
    weightQ (constructGraph pf lines) s d =
      ((pyRange (offAt (constructGraph pf lines) (idxV (mkN2I 0 (nodeList pf lines)) s))
          (offAt (constructGraph pf lines) (idxV (mkN2I 0 (nodeList pf lines)) s + 1))).findSome?
        (fun j => if (constructGraph pf lines).edge_to.getD j 0 =
            idxV (mkN2I 0 (nodeList pf lines)) d
          then some ((constructGraph pf lines).edge_weight.getD j 0) else none),
        constructGraph pf lines) := by
  have hnd := nodeList_nodup pf lines
  have h1 := lookupD_mkN2I_self hnd hs
  have h2 := lookupD_mkN2I_self hnd hd
  unfold weightQ
  have hmap : (constructGraph pf lines).node_to_index_map = mkN2I 0 (nodeList pf lines) := by
    rw [constructGraph_def]
  rw [hmap, ddGet_pres 0 h1]
  simp only
  rw [ddGet_pres 0 h2]
  simp only
  rw [← hmap]

theorem has_edge_char (pf : String → Option ℚ) (lines : List (List String))
    {s d : String} (hs : s ∈ nodeList pf lines) (hd : d ∈ nodeList pf lines) :
    ((has_edgeQ (constructGraph pf lines) s d).1 = true ↔
      ∃ e ∈ edgeList pf lines, e.nodeA = s ∧ e.nodeB = d) := by
  have hnd := nodeList_nodup pf lines
  have hsi : idxV (mkN2I 0 (nodeList pf lines)) s < (nodeList pf lines).length :=
    idxV_lt hnd hs
  have ha : offAt (constructGraph pf lines) (idxV (mkN2I 0 (nodeList pf lines)) s) ≤
      offAt (constructGraph pf lines) (idxV (mkN2I 0 (nodeList pf lines)) s + 1) :=
    offAt_mono pf lines (by omega) (by omega)
  have hb : offAt (constructGraph pf lines) (idxV (mkN2I 0 (nodeList pf lines)) s + 1) ≤
      (edgeList pf lines).length := offAt_le_length pf lines (by omega)
  have hlento : (constructGraph pf lines).edge_to.length = (edgeList pf lines).length := by
    rw [constructGraph_def]
    exact List.length_map _ _
  have hslice : (pyRange (offAt (constructGraph pf lines)
        (idxV (mkN2I 0 (nodeList pf lines)) s))
        (offAt (constructGraph pf lines) (idxV (mkN2I 0 (nodeList pf lines)) s + 1))).map
      (fun j => (constructGraph pf lines).edge_to.getD j 0) =
      ((edgeList pf lines).filter
        (fun e => decide (srcIdx pf lines e = idxV (mkN2I 0 (nodeList pf lines)) s))).map
        (dstIdx pf lines) := by
    unfold pyRange
    rw [range'_map_getD 0 _ _ _ (by omega)]
    exact edge_to_block pf lines hsi
  rw [has_edgeQ_eval pf lines hs hd]
  simp only
  rw [List.any_eq_true]
  constructor
  · rintro ⟨j, hj, hP⟩
    have hx : (constructGraph pf lines).edge_to.getD j 0 ∈
        (pyRange (offAt (constructGraph pf lines)
          (idxV (mkN2I 0 (nodeList pf lines)) s))
          (offAt (constructGraph pf lines)
            (idxV (mkN2I 0 (nodeList pf lines)) s + 1))).map
        (fun j => (constructGraph pf lines).edge_to.getD j 0) :=
      List.mem_map.mpr ⟨j, hj, rfl⟩
    rw [hslice] at hx
    rcases List.mem_map.mp hx with ⟨e, hef, hde⟩
    rcases List.mem_filter.mp hef with ⟨he1, he2⟩
    have hsiE : idxV (mkN2I 0 (nodeList pf lines)) e.nodeA =
        idxV (mkN2I 0 (nodeList pf lines)) s := by simpa [srcIdx] using he2
    have hdiE : idxV (mkN2I 0 (nodeList pf lines)) e.nodeB =
        idxV (mkN2I 0 (nodeList pf lines)) d := by
      have hv := decide_eq_true_eq.mp hP
      rw [← hde] at hv
      exact hv
    exact ⟨e, he1, idxV_inj hnd (edgeList_endA pf lines he1) hs hsiE,
      idxV_inj hnd (edgeList_endB pf lines he1) hd hdiE⟩
  · rintro ⟨e, he, hA, hB⟩
    have hef : e ∈ (edgeList pf lines).filter
        (fun e => decide (srcIdx pf lines e = idxV (mkN2I 0 (nodeList pf lines)) s)) :=
      List.mem_filter.mpr ⟨he, by simp [srcIdx, hA]⟩
    have hmm : dstIdx pf lines e ∈ ((edgeList pf lines).filter
        (fun e => decide (srcIdx pf lines e =
          idxV (mkN2I 0 (nodeList pf lines)) s))).map (dstIdx pf lines) :=
      List.mem_map.mpr ⟨e, hef, rfl⟩
    rw [← hslice] at hmm
    rcases List.mem_map.mp hmm with ⟨j, hj, hgd⟩
    refine ⟨j, hj, ?_⟩
    have hv : (constructGraph pf lines).edge_to.getD j 0 =
        idxV (mkN2I 0 (nodeList pf lines)) d := by
      rw [hgd]
      unfold dstIdx
      rw [hB]
    simp only [decide_eq_true_eq]
    exact hv

theorem weight_char (pf : String → Option ℚ) (lines : List (List String))
    {s d : String} (hs : s ∈ nodeList pf lines) (hd : d ∈ nodeList pf lines) :
    (weightQ (constructGraph pf lines) s d).1 =
      ((edgeList pf lines).find? (fun e => decide (e.nodeA = s ∧ e.nodeB = d))).map
        (fun e => w32 e.weight) := by
  have hnd := nodeList_nodup pf lines
  have hsi : idxV (mkN2I 0 (nodeList pf lines)) s < (nodeList pf lines).length :=
    idxV_lt hnd hs
  have ha : offAt (constructGraph pf lines) (idxV (mkN2I 0 (nodeList pf lines)) s) ≤
      offAt (constructGraph pf lines) (idxV (mkN2I 0 (nodeList pf lines)) s + 1) :=
    offAt_mono pf lines (by omega) (by omega)
  have hb : offAt (constructGraph pf lines) (idxV (mkN2I 0 (nodeList pf lines)) s + 1) ≤
      (edgeList pf lines).length := offAt_le_length pf lines (by omega)
  rw [weightQ_eval pf lines hs hd]
  simp only
  have hstep1 : ∀ j ∈ pyRange (offAt (constructGraph pf lines)
      (idxV (mkN2I 0 (nodeList pf lines)) s))
      (offAt (constructGraph pf lines) (idxV (mkN2I 0 (nodeList pf lines)) s + 1)),
      (if (constructGraph pf lines).edge_to.getD j 0 =
          idxV (mkN2I 0 (nodeList pf lines)) d
        then some ((constructGraph pf lines).edge_weight.getD j 0) else none) =
      ((fun e => if dstIdx pf lines e = idxV (mkN2I 0 (nodeList pf lines)) d
          then some (w32 e.weight) else none) ∘
        (fun j => (edgeList pf lines).getD j dfltEdge)) j := by
    intro j hj
    have hjb : j < (edgeList pf lines).length := by
      have := (List.mem_range'_1.mp hj).2
      omega
    have hTo : (constructGraph pf lines).edge_to.getD j 0 =
        dstIdx pf lines ((edgeList pf lines).getD j dfltEdge) := by
      rw [constructGraph_def]
      show ((edgeList pf lines).map (dstIdx pf lines)).getD j 0 = _
      exact getD_map (dstIdx pf lines) (edgeList pf lines) 0 dfltEdge hjb
    have hW : (constructGraph pf lines).edge_weight.getD j 0 =
        w32 ((edgeList pf lines).getD j dfltEdge).weight := by
      rw [constructGraph_def]
      show ((edgeList pf lines).map (fun e => w32 e.weight)).getD j 0 = _
      exact getD_map (fun e => w32 e.weight) (edgeList pf lines) 0 dfltEdge hjb
    simp only [Function.comp]
    rw [hTo, hW]
  rw [findSome?_congr _ hstep1, ← List.findSome?_map, pyRange,
    range'_map_getD dfltEdge _ _ _ (by omega), offAt_succ_sub pf lines hsi,
    offAt_eq_countP pf lines (by omega), edge_block pf lines,
    findSome?_guard _ _ _, find?_filter_eq _ _ _]
  congr 1
  refine find?_congr_mem (edgeList pf lines) ?_
  intro e he
  have h1 : (srcIdx pf lines e = idxV (mkN2I 0 (nodeList pf lines)) s) ↔ e.nodeA = s := by
    constructor
    · intro h
      exact idxV_inj hnd (edgeList_endA pf lines he) hs h
    · intro h
      unfold srcIdx
      rw [h]
  have h2 : (dstIdx pf lines e = idxV (mkN2I 0 (nodeList pf lines)) d) ↔ e.nodeB = d := by
    constructor
    · intro h
      exact idxV_inj hnd (edgeList_endB pf lines he) hd h
    · intro h
      unfold dstIdx
      rw [h]
  rw [Bool.and_eq_decide, decide_eq_decide]
  rw [h1, h2]

theorem has_edgeQ_state (pf : String → Option ℚ) (lines : List (List String))
    {s d : String} (hs : s ∈ nodeList pf lines) (hd : d ∈ nodeList pf lines) :
    (has_edgeQ (constructGraph pf lines) s d).2 = constructGraph pf lines := by
  rw [has_edgeQ_eval pf lines hs hd]

theorem weightQ_state (pf : String → Option ℚ) (lines : List (List String))
    {s d : String} (hs : s ∈ nodeList pf lines) (hd : d ∈ nodeList pf lines) :
    (weightQ (constructGraph pf lines) s d).2 = constructGraph pf lines := by
  rw [weightQ_eval pf lines hs hd]

theorem nbr_fold (g : CSFGraph) (m : List (ℕ × String)) :
    ∀ (idxs : List ℕ) (l : List String),
      (∀ j ∈ idxs, (lookupN m (g.edge_to.getD j 0)).isSome = true) →
      idxs.foldl (nbrStep g) (l, m) =
        (l ++ idxs.map (fun j => (lookupN m (g.edge_to.getD j 0)).getD ""), m) := by
  intro idxs
  induction idxs with
  | nil => intro l _; simp
  | cons j t ih =>
    intro l h
    have hj := h j (List.mem_cons_self j t)
    rcases Option.isSome_iff_exists.mp hj with ⟨v, hv⟩
    rw [List.foldl_cons]
    have hstep : nbrStep g (l, m) j = (l ++ [v], m) := by
      unfold nbrStep
      rw [ddGetN_pres "" hv]
    have hfj : (lookupN m (g.edge_to.getD j 0)).getD "" = v := by
      rw [hv]
      rfl
    rw [hstep, ih (l ++ [v]) (fun x hx => h x (List.mem_cons_of_mem j hx)),
      List.map_cons, hfj, List.append_assoc]
    rfl

theorem edge_to_getD_lt (pf : String → Option ℚ) (lines : List (List String))
    {j : ℕ} (hj : j < (edgeList pf lines).length) :
    (constructGraph pf lines).edge_to.getD j 0 < (nodeList pf lines).length := by
  have hTo : (constructGraph pf lines).edge_to.getD j 0 =
      dstIdx pf lines ((edgeList pf lines).getD j dfltEdge) := by
    rw [constructGraph_def]
    show ((edgeList pf lines).map (dstIdx pf lines)).getD j 0 = _
    exact getD_map (dstIdx pf lines) (edgeList pf lines) 0 dfltEdge hj
  rw [hTo]
  refine dstIdx_lt pf lines ?_
  rw [List.getD_eq_getElem (edgeList pf lines) dfltEdge hj]
  exact List.getElem_mem hj

theorem neighborsQ_eval (pf : String → Option ℚ) (lines : List (List String))
    {src : String} (hs : src ∈ nodeList pf lines) :
    neighborsQ (constructGraph pf lines) src =
      ((pyRange (offAt (constructGraph pf lines)
          (idxV (mkN2I 0 (nodeList pf lines)) src))
          (offAt (constructGraph pf lines)
            (idxV (mkN2I 0 (nodeList pf lines)) src + 1))).map
        (fun j => (lookupN (mkI2N 0 (nodeList pf lines))
          ((constructGraph pf lines).edge_to.getD j 0)).getD ""),
        constructGraph pf lines) := by
  have hnd := nodeList_nodup pf lines
  have h1 := lookupD_mkN2I_self hnd hs
  have hsi : idxV (mkN2I 0 (nodeList pf lines)) src < (nodeList pf lines).length :=
    idxV_lt hnd hs
  have hb : offAt (constructGraph pf lines)
      (idxV (mkN2I 0 (nodeList pf lines)) src + 1) ≤ (edgeList pf lines).length :=
    offAt_le_length pf lines (by omega)
  have ha : offAt (constructGraph pf lines)
      (idxV (mkN2I 0 (nodeList pf lines)) src) ≤
      offAt (constructGraph pf lines)
        (idxV (mkN2I 0 (nodeList pf lines)) src + 1) :=
    offAt_mono pf lines (by omega) (by omega)
  have hmap : (constructGraph pf lines).node_to_index_map =
      mkN2I 0 (nodeList pf lines) := by
    rw [constructGraph_def]
  have hi2n : (constructGraph pf lines).index_to_node_map =
      mkI2N 0 (nodeList pf lines) := by
    rw [constructGraph_def]
  have hhits : ∀ j ∈ pyRange (offAt (constructGraph pf lines)
      (idxV (mkN2I 0 (nodeList pf lines)) src))
      (offAt (constructGraph pf lines)
        (idxV (mkN2I 0 (nodeList pf lines)) src + 1)),
      (lookupN (mkI2N 0 (nodeList pf lines))
        ((constructGraph pf lines).edge_to.getD j 0)).isSome = true := by
    intro j hj
    have hjb : j < (edgeList pf lines).length := by
      have := (List.mem_range'_1.mp hj).2
      omega
    rw [lookupN_mkI2N_self (edge_to_getD_lt pf lines hjb)]
    rfl
  unfold neighborsQ
  rw [hmap, ddGet_pres 0 h1]
  simp only
  rw [hi2n, nbr_fold (constructGraph pf lines) (mkI2N 0 (nodeList pf lines)) _ [] hhits]
  simp only [List.nil_append]
  rw [← hmap, ← hi2n]

theorem edgesInner_fold_state (g : CSFGraph) (m : List (ℕ × String)) (src : String) :
    ∀ (idxs : List ℕ) (l : List (String × String)),
      (∀ j ∈ idxs, (lookupN m (g.edge_to.getD j 0)).isSome = true) →
      ∃ l2 : List (String × String), idxs.foldl (edgesInner g src) (l, m) = (l2, m) := by
  intro idxs
  induction idxs with
  | nil => intro l _; exact ⟨l, rfl⟩
  | cons j t ih =>
    intro l h
    rcases Option.isSome_iff_exists.mp (h j (List.mem_cons_self j t)) with ⟨v, hv⟩
    rw [List.foldl_cons]
    have hstep : edgesInner g src (l, m) j = (l ++ [(src, v)], m) := by
      unfold edgesInner
      rw [ddGetN_pres "" hv]
    rw [hstep]
    exact ih (l ++ [(src, v)]) (fun x hx => h x (List.mem_cons_of_mem j hx))

theorem edgesOuter_fold_state (pf : String → Option ℚ) (lines : List (List String)) :
    ∀ (sis : List ℕ) (l : List (String × String)),
      (∀ si ∈ sis, si < (nodeList pf lines).length) →
      ∃ l2 : List (String × String),
        sis.foldl (edgesOuter (constructGraph pf lines))
          (l, mkI2N 0 (nodeList pf lines)) = (l2, mkI2N 0 (nodeList pf lines)) := by
  intro sis
  induction sis with
  | nil => intro l _; exact ⟨l, rfl⟩
  | cons si t ih =>
    intro l h
    have hsi := h si (List.mem_cons_self si t)
    have hv : lookupN (mkI2N 0 (nodeList pf lines)) si =
        some ((nodeList pf lines).get ⟨si, hsi⟩) := lookupN_mkI2N_self hsi
    rw [List.foldl_cons]
    have hb : offAt (constructGraph pf lines) (si + 1) ≤ (edgeList pf lines).length :=
      offAt_le_length pf lines (by omega)
    have ha : offAt (constructGraph pf lines) si ≤
        offAt (constructGraph pf lines) (si + 1) :=
      offAt_mono pf lines (by omega) (by omega)
    have hhits : ∀ j ∈ pyRange (offAt (constructGraph pf lines) si)
        (offAt (constructGraph pf lines) (si + 1)),
        (lookupN (mkI2N 0 (nodeList pf lines))
          ((constructGraph pf lines).edge_to.getD j 0)).isSome = true := by
      intro j hj
      have hjb : j < (edgeList pf lines).length := by
        have := (List.mem_range'_1.mp hj).2
        omega
      rw [lookupN_mkI2N_self (edge_to_getD_lt pf lines hjb)]
      rfl
    have hstep : edgesOuter (constructGraph pf lines) (l, mkI2N 0 (nodeList pf lines)) si =
        ((pyRange (offAt (constructGraph pf lines) si)
          (offAt (constructGraph pf lines) (si + 1))).foldl
          (edgesInner (constructGraph pf lines) ((nodeList pf lines).get ⟨si, hsi⟩))
          (l, mkI2N 0 (nodeList pf lines))) := by
      unfold edgesOuter
      rw [ddGetN_pres "" hv]
    rw [hstep]
    rcases edgesInner_fold_state (constructGraph pf lines) (mkI2N 0 (nodeList pf lines))
      ((nodeList pf lines).get ⟨si, hsi⟩) _ l hhits with ⟨l2, hl2⟩
    rw [hl2]
    exact ih l2 (fun x hx => h x (List.mem_cons_of_mem si hx))

theorem edgesQ_state (pf : String → Option ℚ) (lines : List (List String)) :
    (edgesQ (constructGraph pf lines)).2 = constructGraph pf lines := by
  have hi2n : (constructGraph pf lines).index_to_node_map =
      mkI2N 0 (nodeList pf lines) := by
    rw [constructGraph_def]
  have hlen : (constructGraph pf lines).offset_to_edge_.length =
      (nodeList pf lines).length + 1 := by
    rw [constructGraph_def]
    exact length_offsetsFrom (degOf pf lines) 0 (nodeList pf lines)
  have hmem : ∀ si ∈ pyRange 0 ((constructGraph pf lines).offset_to_edge_.length - 1),
      si < (nodeList pf lines).length := by
    intro si hsi
    have := (List.mem_range'_1.mp hsi).2
    omega
  unfold edgesQ
  rw [hi2n]
  rcases edgesOuter_fold_state pf lines _ [] hmem with ⟨l2, hl2⟩
  rw [hl2]
  simp only
  rw [← hi2n]

theorem mkN2I_fst : ∀ (k : ℕ) (ns : List String), (mkN2I k ns).map Prod.fst = ns := by
  intro k ns
  induction ns generalizing k with
  | nil => rfl
  | cons n t ih => simp [mkN2I, ih]

theorem nodesQ_eq (pf : String → Option ℚ) (lines : List (List String)) :
    nodesQ (constructGraph pf lines) = nodeList pf lines := by
  unfold nodesQ
  rw [constructGraph_def]
  exact mkN2I_fst 0 (nodeList pf lines)

theorem mkN2I_length : ∀ (k : ℕ) (ns : List String),
    (mkN2I k ns).length = ns.length := by
  intro k ns
  induction ns generalizing k with
  | nil => rfl
  | cons n t ih => simp [mkN2I, ih]

theorem node_countQ_eq (pf : String → Option ℚ) (lines : List (List String)) :
    node_countQ (constructGraph pf lines) = (nodeList pf lines).length := by
  unfold node_countQ
  rw [constructGraph_def]
  exact mkN2I_length 0 (nodeList pf lines)

theorem edge_countQ_eq (pf : String → Option ℚ) (lines : List (List String)) :
    edge_countQ (constructGraph pf lines) = (edgeList pf lines).length := by
  unfold edge_countQ
  rw [constructGraph_def]
  exact List.length_map _ _

theorem edgeList_keymem (pf : String → Option ℚ) (lines : List (List String))
    {x y : String} : ((x, y) ∈ (edgeList pf lines).map Edge.key) ↔
      upair x y ∈ pairsOf (accepted pf lines) := by
  rw [((edgeList_perm pf lines).map Edge.key).mem_iff]
  exact (inv_ingest pf lines).keymem x y

theorem edgeList_wfirst (pf : String → Option ℚ) (lines : List (List String))
    {e : Edge} (he : e ∈ edgeList pf lines) :
    ∃ t : Triple, firstFor (accepted pf lines) e.nodeA e.nodeB = some t ∧
      e.weight = t.2.2 :=
  (inv_ingest pf lines).wfirst e ((mem_edgeList pf lines).mp he)

theorem firstFor_comm (T : List Triple) (a b : String) :
    firstFor T b a = firstFor T a b := by
  unfold firstFor
  refine find?_congr_mem T ?_
  intro t _
  rw [decide_eq_decide, upair_comm a b]

theorem key_mem_nodes (pf : String → Option ℚ) (lines : List (List String))
    {x y : String} (h : (x, y) ∈ (edgeList pf lines).map Edge.key) :
    x ∈ nodeList pf lines ∧ y ∈ nodeList pf lines := by
  rcases List.mem_map.mp h with ⟨e, he, hk⟩
  have hx : e.nodeA = x := congrArg Prod.fst hk
  have hy : e.nodeB = y := congrArg Prod.snd hk
  exact ⟨hx ▸ edgeList_endA pf lines he, hy ▸ edgeList_endB pf lines he⟩

theorem find?_of_first {α : Type} (p : α → Bool) :
    ∀ (l : List α) (k : ℕ) (x : α), l[k]? = some x → p x = true →
      (∀ j < k, ∀ y : α, l[j]? = some y → p y = false) → l.find? p = some x := by
  intro l
  induction l with
  | nil => intro k x hk _ _; simp at hk
  | cons z t ih =>
    intro k x hk hx hbefore
    cases k with
    | zero =>
      have hz : z = x := by simpa using hk
      rw [List.find?_cons, hz, hx]
    | succ m =>
      have hz : p z = false := hbefore 0 (by omega) z (by simp)
      rw [List.find?_cons, hz]
      refine ih m x (by simpa using hk) hx ?_
      intro j hj y hy
      exact hbefore (j + 1) (by omega) y (by simpa using hy)

theorem countP_key_unique :
    ∀ l : List Edge, (l.map Edge.key).Nodup → ∀ k : String × String,
      k ∈ l.map Edge.key → l.countP (fun e => decide (e.key = k)) = 1 := by
  intro l
  induction l with
  | nil => intro _ k hk; simp at hk
  | cons x t ih =>
    intro hnd k hk
    have hnd' : (t.map Edge.key).Nodup := (List.nodup_cons.mp (by simpa using hnd)).2
    have hxk : x.key ∉ t.map Edge.key := (List.nodup_cons.mp (by simpa using hnd)).1
    rw [List.countP_cons]
    by_cases hx : x.key = k
    · have hzero : t.countP (fun e => decide (e.key = k)) = 0 :=
        List.countP_eq_zero.mpr (fun e he => by
          simp only [decide_eq_true_eq]
          intro hc
          exact hxk (hx ▸ hc ▸ List.mem_map.mpr ⟨e, he, rfl⟩))
      simp [hzero, hx]
    · have hk' : k ∈ t.map Edge.key := by
        have hor : k = x.key ∨ ∃ a ∈ t, a.key = k := by simpa using hk
        rcases hor with heq | ⟨a, ha, hak⟩
        · exact absurd heq.symm hx
        · exact List.mem_map.mpr ⟨a, ha, hak⟩
      simp [hx, ih hnd' k hk']

theorem C1_theorem (pf : String → Option ℚ) (lines : List (List String))
    {a b : String} {w : ℚ} (hmem : (a, b, w) ∈ accepted pf lines) :
    (has_edgeQ (constructGraph pf lines) a b).1 = true ∧
    (has_edgeQ (constructGraph pf lines) b a).1 = true ∧
    ∀ t0 : Triple, firstFor (accepted pf lines) a b = some t0 →
      (weightQ (constructGraph pf lines) a b).1 = some (w32 t0.2.2) ∧
      (weightQ (constructGraph pf lines) b a).1 = some (w32 t0.2.2) := by
  have hpair : upair a b ∈ pairsOf (accepted pf lines) :=
    List.mem_map.mpr ⟨(a, b, w), hmem, rfl⟩
  have hkab : ((a, b) : String × String) ∈ (edgeList pf lines).map Edge.key :=
    (edgeList_keymem pf lines).mpr hpair
  have hkba : ((b, a) : String × String) ∈ (edgeList pf lines).map Edge.key :=
    (edgeList_keymem pf lines).mpr (upair_comm b a ▸ hpair)
  have ha : a ∈ nodeList pf lines := (key_mem_nodes pf lines hkab).1
  have hb : b ∈ nodeList pf lines := (key_mem_nodes pf lines hkab).2
  rcases List.mem_map.mp hkab with ⟨e1, he1, hke1⟩
  rcases List.mem_map.mp hkba with ⟨e2, he2, hke2⟩
  have he1A : e1.nodeA = a := congrArg Prod.fst hke1
  have he1B : e1.nodeB = b := congrArg Prod.snd hke1
  have he2A : e2.nodeA = b := congrArg Prod.fst hke2
  have he2B : e2.nodeB = a := congrArg Prod.snd hke2
  refine ⟨(has_edge_char pf lines ha hb).mpr ⟨e1, he1, he1A, he1B⟩,
    (has_edge_char pf lines hb ha).mpr ⟨e2, he2, he2A, he2B⟩, ?_⟩
  intro t0 ht0
  constructor
  · rw [weight_char pf lines ha hb]
    have hex : ∃ e ∈ edgeList pf lines,
        (fun e => decide (e.nodeA = a ∧ e.nodeB = b)) e = true :=
      ⟨e1, he1, by simp [he1A, he1B]⟩
    rcases Option.isSome_iff_exists.mp (List.find?_isSome.mpr hex) with ⟨ef, hef⟩
    rw [hef]
    have hpf := List.find?_some hef
    simp only [decide_eq_true_eq] at hpf
    rcases edgeList_wfirst pf lines (List.mem_of_find?_eq_some hef) with ⟨t1, ht1, hw1⟩
    rw [hpf.1, hpf.2, ht0] at ht1
    have ht10 : t0 = t1 := Option.some.inj ht1
    show some (w32 ef.weight) = some (w32 t0.2.2)
    rw [hw1, ht10]
  · rw [weight_char pf lines hb ha]
    have hex : ∃ e ∈ edgeList pf lines,
        (fun e => decide (e.nodeA = b ∧ e.nodeB = a)) e = true :=
      ⟨e2, he2, by simp [he2A, he2B]⟩
    rcases Option.isSome_iff_exists.mp (List.find?_isSome.mpr hex) with ⟨ef, hef⟩
    rw [hef]
    have hpf := List.find?_some hef
    simp only [decide_eq_true_eq] at hpf
    rcases edgeList_wfirst pf lines (List.mem_of_find?_eq_some hef) with ⟨t1, ht1, hw1⟩
    rw [hpf.1, hpf.2, firstFor_comm (accepted pf lines) a b, ht0] at ht1
    have ht10 : t0 = t1 := Option.some.inj ht1
    show some (w32 ef.weight) = some (w32 t0.2.2)
    rw [hw1, ht10]

theorem C1_witness :
    ((("a" : String), ("b" : String), (1 : ℚ)) ∈ accepted pfW fileAB) ∧
    firstFor (accepted pfW fileAB) "a" "b" = some ("a", "b", (1 : ℚ)) ∧
    (has_edgeQ (constructGraph pfW fileAB) "a" "b").1 = true ∧
    (has_edgeQ (constructGraph pfW fileAB) "b" "a").1 = true ∧
    (weightQ (constructGraph pfW fileAB) "a" "b").1 = some (w32 1) ∧
    (weightQ (constructGraph pfW fileAB) "b" "a").1 = some (w32 1) :=
  ⟨by decide, by decide,
    (@C1_theorem pfW fileAB "a" "b" 1 (by decide)).1,
    (@C1_theorem pfW fileAB "a" "b" 1 (by decide)).2.1,
    ((@C1_theorem pfW fileAB "a" "b" 1 (by decide)).2.2 ("a", "b", 1) (by decide)).1,
    ((@C1_theorem pfW fileAB "a" "b" 1 (by decide)).2.2 ("a", "b", 1) (by decide)).2⟩

theorem C1_counterexample :
    (weightQ (constructGraph pfW fileHalf) "a" "b").1 = some 1 ∧
    Option.map (fun z : ℤ => (z : ℚ)) (weightQ (constructGraph pfW fileHalf) "a" "b").1 ≠
      some (mkRat 3 2) := by
  refine ⟨by decide, ?_⟩
  intro hc
  have h1 : (weightQ (constructGraph pfW fileHalf) "a" "b").1 = some 1 := by decide
  rw [h1] at hc
  have h2 : ((1 : ℤ) : ℚ) = mkRat 3 2 := Option.some.inj hc
  have h3 : ((1 : ℤ) : ℚ) ≠ mkRat 3 2 := by decide
  exact h3 h2

theorem C2_theorem (pf : String → Option ℚ) (lines : List (List String))
    {s d : String} (hs : s ∈ nodesQ (constructGraph pf lines))
    (hd : d ∈ nodesQ (constructGraph pf lines)) :
    (has_edgeQ (constructGraph pf lines) s d).2 = constructGraph pf lines ∧
    (weightQ (constructGraph pf lines) s d).2 = constructGraph pf lines ∧
    (neighborsQ (constructGraph pf lines) s).2 = constructGraph pf lines ∧
    (edgesQ (constructGraph pf lines)).2 = constructGraph pf lines ∧
    (same_nodetypeQ (constructGraph pf lines) s d).2 = constructGraph pf lines := by
  rw [nodesQ_eq] at hs hd
  exact ⟨has_edgeQ_state pf lines hs hd, weightQ_state pf lines hs hd,
    by rw [neighborsQ_eval pf lines hs], edgesQ_state pf lines, rfl⟩

theorem C2_witness :
    (("a" : String) ∈ nodesQ (constructGraph pfW fileAB)) ∧
    (("b" : String) ∈ nodesQ (constructGraph pfW fileAB)) ∧
    (has_edgeQ (constructGraph pfW fileAB) "a" "b").2 = constructGraph pfW fileAB ∧
    (weightQ (constructGraph pfW fileAB) "a" "b").2 = constructGraph pfW fileAB ∧
    (neighborsQ (constructGraph pfW fileAB) "a").2 = constructGraph pfW fileAB ∧
    (edgesQ (constructGraph pfW fileAB)).2 = constructGraph pfW fileAB ∧
    (same_nodetypeQ (constructGraph pfW fileAB) "a" "b").2 = constructGraph pfW fileAB :=
  ⟨by decide, by decide,
    (@C2_theorem pfW fileAB "a" "b" (by decide) (by decide)).1,
    (@C2_theorem pfW fileAB "a" "b" (by decide) (by decide)).2.1,
    (@C2_theorem pfW fileAB "a" "b" (by decide) (by decide)).2.2.1,
    (@C2_theorem pfW fileAB "a" "b" (by decide) (by decide)).2.2.2.1,
    (@C2_theorem pfW fileAB "a" "b" (by decide) (by decide)).2.2.2.2⟩

theorem C2_counterexample :
    node_countQ (constructGraph pfW fileAB) = 2 ∧
    node_countQ ((has_edgeQ (constructGraph pfW fileAB) "z" "a").2) = 3 := by
  decide

theorem C3_theorem (pf : String → Option ℚ) (lines : List (List String))
    {s d : String} (hs : s ∈ nodesQ (constructGraph pf lines))
    (hd : d ∈ nodesQ (constructGraph pf lines))
    (hnone : ∀ e ∈ edgeList pf lines, ¬(e.nodeA = s ∧ e.nodeB = d)) :
    (weightQ (constructGraph pf lines) s d).1 = none := by
  rw [nodesQ_eq] at hs hd
  rw [weight_char pf lines hs hd,
    List.find?_eq_none.mpr (fun e he => by simpa using hnone e he)]
  rfl

theorem C3_witness :
    (("a" : String) ∈ nodesQ (constructGraph pfW fileTwo)) ∧
    (("c" : String) ∈ nodesQ (constructGraph pfW fileTwo)) ∧
    (∀ e ∈ edgeList pfW fileTwo, ¬(e.nodeA = "a" ∧ e.nodeB = "c")) ∧
    (weightQ (constructGraph pfW fileTwo) "a" "c").1 = none :=
  ⟨by decide, by decide, by decide,
    @C3_theorem pfW fileTwo "a" "c" (by decide) (by decide) (by decide)⟩

theorem C3_counterexample :
    (("z" : String) ∉ nodesQ (constructGraph pfW fileAB)) ∧
    (∀ e ∈ edgeList pfW fileAB, ¬(e.nodeA = "z" ∧ e.nodeB = "b")) ∧
    (weightQ (constructGraph pfW fileAB) "z" "b").1 = some 1 := by
  decide

theorem C4_theorem (pf : String → Option ℚ) (lines : List (List String)) :
    edge_countQ (constructGraph pf lines) =
      2 * ((pairsOf (accepted pf lines)).toFinset.filter (fun p => p.1 ≠ p.2)).card +
        ((pairsOf (accepted pf lines)).toFinset.filter (fun p => p.1 = p.2)).card := by
  rw [edge_countQ_eq, (edgeList_perm pf lines).length_eq]
  have h := (inv_ingest pf lines).count
  unfold pairCount at h
  exact h

theorem C4_counterexample :
    edge_countQ (constructGraph pfW fileLoop) = 1 ∧
    (pairsOf (accepted pfW fileLoop)).toFinset.card = 1 ∧
    edge_countQ (constructGraph pfW fileLoop) ≠
      2 * (pairsOf (accepted pfW fileLoop)).toFinset.card := by
  decide

theorem C5_theorem (pf : String → Option ℚ) (lines : List (List String)) :
    (constructGraph pf lines).offset_to_edge_.length =
      node_countQ (constructGraph pf lines) + 1 ∧
    offAt (constructGraph pf lines) 0 = 0 ∧
    (∀ i j : ℕ, i ≤ j → j ≤ node_countQ (constructGraph pf lines) →
      offAt (constructGraph pf lines) i ≤ offAt (constructGraph pf lines) j) ∧
    (∀ (i : ℕ) (lbl : String), i < node_countQ (constructGraph pf lines) →
      lookupN (constructGraph pf lines).index_to_node_map i = some lbl →
      offAt (constructGraph pf lines) (i + 1) - offAt (constructGraph pf lines) i =
        ((neighborsQ (constructGraph pf lines) lbl).1).length) := by
  refine ⟨?_, offAt_zero pf lines, ?_, ?_⟩
  · rw [node_countQ_eq, constructGraph_def]
    exact length_offsetsFrom (degOf pf lines) 0 (nodeList pf lines)
  · intro i j hij hj
    rw [node_countQ_eq] at hj
    exact offAt_mono pf lines hij hj
  · intro i lbl hi hlook
    rw [node_countQ_eq] at hi
    have hi2n : (constructGraph pf lines).index_to_node_map =
        mkI2N 0 (nodeList pf lines) := by
      rw [constructGraph_def]
    rw [hi2n] at hlook
    have hself := @lookupN_mkI2N_self (nodeList pf lines) i hi
    rw [hlook] at hself
    have hlbl : lbl = (nodeList pf lines).get ⟨i, hi⟩ := Option.some.inj hself
    have hmem : lbl ∈ nodeList pf lines :=
      hlbl ▸ (nodeList pf lines).get_mem i hi
    rw [neighborsQ_eval pf lines hmem]
    simp only
    rw [List.length_map]
    unfold pyRange
    rw [List.length_range']
    have hsi : idxV (mkN2I 0 (nodeList pf lines)) lbl = i := by
      rw [hlbl]
      exact idxV_get (nodeList_nodup pf lines) hi
    rw [hsi]

theorem C5_witness :
    (constructGraph pfW fileAB).offset_to_edge_.length =
      node_countQ (constructGraph pfW fileAB) + 1 ∧
    offAt (constructGraph pfW fileAB) 0 = 0 ∧
    (0 : ℕ) < node_countQ (constructGraph pfW fileAB) ∧
    lookupN (constructGraph pfW fileAB).index_to_node_map 0 = some "a" ∧
    offAt (constructGraph pfW fileAB) 1 - offAt (constructGraph pfW fileAB) 0 =
      ((neighborsQ (constructGraph pfW fileAB) "a").1).length :=
  ⟨(C5_theorem pfW fileAB).1, (C5_theorem pfW fileAB).2.1, by decide, by decide,
    (C5_theorem pfW fileAB).2.2.2 0 "a" (by decide) (by decide)⟩

theorem filterMap_filter_isSome {α β : Type} (f : α → Option β) :
    ∀ l : List α, (l.filter (fun x => (f x).isSome)).filterMap f = l.filterMap f := by
  intro l
  induction l with
  | nil => rfl
  | cons x t ih =>
    rw [List.filter_cons]
    cases hf : f x with
    | none => simp [List.filterMap_cons, hf, ih]
    | some b => simp [List.filterMap_cons, hf, ih]

theorem C6_theorem (pf : String → Option ℚ) (lines : List (List String)) :
    constructGraph pf lines =
      constructGraph pf (lines.filter (fun l => (parseLine pf l).isSome)) := by
  have hacc : accepted pf (lines.filter (fun l => (parseLine pf l).isSome)) =
      accepted pf lines := filterMap_filter_isSome (parseLine pf) lines
  have hing : ingest pf (lines.filter (fun l => (parseLine pf l).isSome)) =
      ingest pf lines := by
    rw [ingest_eq_foldl, ingest_eq_foldl, hacc]
  unfold constructGraph
  rw [hing]

theorem C7_theorem (pf : String → Option ℚ) (lines : List (List String))
    {a b a2 b2 : String} {w1 w2 : ℚ} {k1 k2 : ℕ}
    (_hab : a ≠ b)
    (hk1 : (accepted pf lines)[k1]? = some (a, b, w1))
    (hfirst : ∀ j < k1, ∀ t : Triple, (accepted pf lines)[j]? = some t →
      upair t.1 t.2.1 ≠ upair a b)
    (_hk12 : k1 < k2)
    (_hk2 : (accepted pf lines)[k2]? = some (a2, b2, w2))
    (_hp2 : upair a2 b2 = upair a b)
    (_hw : w2 ≠ w1) :
    (edgeList pf lines).countP (fun e => decide (e.key = (a, b))) = 1 ∧
    (edgeList pf lines).countP (fun e => decide (e.key = (b, a))) = 1 ∧
    (∀ e ∈ edgeList pf lines, e.key = (a, b) → e.weight = w1) ∧
    (∀ e ∈ edgeList pf lines, e.key = (b, a) → e.weight = w1) := by
  have hmem : ((a, b, w1) : Triple) ∈ accepted pf lines := List.getElem?_mem hk1
  have hpair : upair a b ∈ pairsOf (accepted pf lines) :=
    List.mem_map.mpr ⟨_, hmem, rfl⟩
  have hkab : ((a, b) : String × String) ∈ (edgeList pf lines).map Edge.key :=
    (edgeList_keymem pf lines).mpr hpair
  have hkba : ((b, a) : String × String) ∈ (edgeList pf lines).map Edge.key :=
    (edgeList_keymem pf lines).mpr (upair_comm b a ▸ hpair)
  have hff : firstFor (accepted pf lines) a b = some (a, b, w1) := by
    unfold firstFor
    refine find?_of_first _ (accepted pf lines) k1 (a, b, w1) hk1 (by simp) ?_
    intro j hj y hy
    exact decide_eq_false (hfirst j hj y hy)
  refine ⟨countP_key_unique (edgeList pf lines) (edgeList_key_nodup pf lines) (a, b) hkab,
    countP_key_unique (edgeList pf lines) (edgeList_key_nodup pf lines) (b, a) hkba,
    ?_, ?_⟩
  · intro e he hkey
    rcases edgeList_wfirst pf lines he with ⟨t1, ht1, hw1e⟩
    have heA : e.nodeA = a := congrArg Prod.fst hkey
    have heB : e.nodeB = b := congrArg Prod.snd hkey
    rw [heA, heB, hff] at ht1
    have ht : ((a, b, w1) : Triple) = t1 := Option.some.inj ht1
    rw [hw1e, ← ht]
  · intro e he hkey
    rcases edgeList_wfirst pf lines he with ⟨t1, ht1, hw1e⟩
    have heA : e.nodeA = b := congrArg Prod.fst hkey
    have heB : e.nodeB = a := congrArg Prod.snd hkey
    rw [heA, heB, firstFor_comm (accepted pf lines) a b, hff] at ht1
    have ht : ((a, b, w1) : Triple) = t1 := Option.some.inj ht1
    rw [hw1e, ← ht]

theorem C7_witness :
    (("a" : String) ≠ "b") ∧
    (accepted pfW fileDup)[0]? = some ("a", "b", (1 : ℚ)) ∧
    ((0 : ℕ) < 1) ∧
    (accepted pfW fileDup)[1]? = some ("a", "b", (5 : ℚ)) ∧
    ((5 : ℚ) ≠ 1) ∧
    (edgeList pfW fileDup).countP (fun e => decide (e.key = ("a", "b"))) = 1 ∧
    (edgeList pfW fileDup).countP (fun e => decide (e.key = ("b", "a"))) = 1 ∧
    (∀ e ∈ edgeList pfW fileDup, e.key = ("a", "b") → e.weight = 1) ∧
    (∀ e ∈ edgeList pfW fileDup, e.key = ("b", "a") → e.weight = 1) :=
  ⟨by decide, by decide, by decide, by decide, by decide,
    (@C7_theorem pfW fileDup "a" "b" "a" "b" 1 5 0 1 (by decide) (by decide)
      (fun j hj _ _ => absurd hj (Nat.not_lt_zero j)) (by decide) (by decide) rfl
      (by decide)).1,
    (@C7_theorem pfW fileDup "a" "b" "a" "b" 1 5 0 1 (by decide) (by decide)
      (fun j hj _ _ => absurd hj (Nat.not_lt_zero j)) (by decide) (by decide) rfl
      (by decide)).2.1,
    (@C7_theorem pfW fileDup "a" "b" "a" "b" 1 5 0 1 (by decide) (by decide)
      (fun j hj _ _ => absurd hj (Nat.not_lt_zero j)) (by decide) (by decide) rfl
      (by decide)).2.2.1,
    (@C7_theorem pfW fileDup "a" "b" "a" "b" 1 5 0 1 (by decide) (by decide)
      (fun j hj _ _ => absurd hj (Nat.not_lt_zero j)) (by decide) (by decide) rfl
      (by decide)).2.2.2⟩

theorem C8_theorem (pf : String → Option ℚ)
    (fs : String → Option (List (List String))) (arg : Option PyArg) :
    (∃ g : CSFGraph, csfgraph_init pf fs arg = Except.ok g) ↔
      ∃ (p : String) (content : List (List String)),
        arg = some (PyArg.stringV p) ∧ fs p = some content := by
  cases arg with
  | none => simp [csfgraph_init]
  | some a =>
    cases a with
    | noneV => simp [csfgraph_init]
    | nonString => simp [csfgraph_init]
    | stringV p =>
      cases hfs : fs p with
      | none => simp [csfgraph_init, hfs]
      | some content => simp [csfgraph_init, hfs]

theorem C9_theorem (pf : String → Option ℚ) (lines : List (List String))
    {i : ℕ} (hi : i < node_countQ (constructGraph pf lines)) (d : ℕ) :
    (((constructGraph pf lines).edge_to.drop
        (offAt (constructGraph pf lines) i)).take
      (offAt (constructGraph pf lines) (i + 1) -
        offAt (constructGraph pf lines) i)).count d ≤ 1 := by
  rw [node_countQ_eq] at hi
  rw [edge_to_block pf lines hi]
  have hfil : ((edgeList pf lines).filter
      (fun e => decide (srcIdx pf lines e = i))).Nodup :=
    (List.Nodup.of_map Edge.key (edgeList_key_nodup pf lines)).filter _
  have hnodup : (((edgeList pf lines).filter
      (fun e => decide (srcIdx pf lines e = i))).map (dstIdx pf lines)).Nodup := by
    refine List.Nodup.map_on ?_ hfil
    intro x hx y hy hdxy
    have hxe := List.mem_filter.mp hx
    have hye := List.mem_filter.mp hy
    have hxi : srcIdx pf lines x = i := by simpa using hxe.2
    have hyi : srcIdx pf lines y = i := by simpa using hye.2
    have hA : x.nodeA = y.nodeA :=
      idxV_inj (nodeList_nodup pf lines) (edgeList_endA pf lines hxe.1)
        (edgeList_endA pf lines hye.1) (hxi.trans hyi.symm)
    have hB : x.nodeB = y.nodeB :=
      idxV_inj (nodeList_nodup pf lines) (edgeList_endB pf lines hxe.1)
        (edgeList_endB pf lines hye.1) hdxy
    refine List.inj_on_of_nodup_map (edgeList_key_nodup pf lines) hxe.1 hye.1 ?_
    show x.key = y.key
    unfold Edge.key
    rw [hA, hB]
  exact List.nodup_iff_count_le_one.mp hnodup d

theorem C9_witness :
    (0 : ℕ) < node_countQ (constructGraph pfW fileAB) ∧
    (((constructGraph pfW fileAB).edge_to.drop
        (offAt (constructGraph pfW fileAB) 0)).take
      (offAt (constructGraph pfW fileAB) (0 + 1) -
        offAt (constructGraph pfW fileAB) 0)).count 1 ≤ 1 :=
  ⟨by decide, @C9_theorem pfW fileAB 0 (by decide) 1⟩

theorem C10_theorem (pf : String → Option ℚ) (lines : List (List String))
    {s d : String} {e : Edge}
    (hfind : (edgeList pf lines).find?
      (fun e => decide (e.nodeA = s ∧ e.nodeB = d)) = some e) :
    (weightQ (constructGraph pf lines) s d).1 = some (int32cast (truncQ e.weight)) := by
  have hmem := List.mem_of_find?_eq_some hfind
  have hp := List.find?_some hfind
  simp only [decide_eq_true_eq] at hp
  have hs : s ∈ nodeList pf lines := hp.1 ▸ edgeList_endA pf lines hmem
  have hd : d ∈ nodeList pf lines := hp.2 ▸ edgeList_endB pf lines hmem
  rw [weight_char pf lines hs hd, hfind]
  rfl

theorem C10_witness :
    (edgeList pfW fileHalf).find?
      (fun e => decide (e.nodeA = "a" ∧ e.nodeB = "b")) =
        some ⟨"a", "b", mkRat 3 2⟩ ∧
    (weightQ (constructGraph pfW fileHalf) "a" "b").1 =
      some (int32cast (truncQ (mkRat 3 2))) :=
  ⟨by decide, @C10_theorem pfW fileHalf "a" "b" ⟨"a", "b", mkRat 3 2⟩ (by decide)⟩

end N2V
